import Mathlib

/-!
A verification development for the Q&A → SQLite loader (`load_llm_qna.py`).

The Python source is shallowly embedded: pure helpers become Lean functions
over `List Char` / `String`, the SQLite tables become explicit record lists
in a `DB` state, SQL statements (`INSERT OR IGNORE`, `INSERT ... ON CONFLICT
DO UPDATE`) become pure state transformers with the semantics SQLite gives
them, and the Python `KeyError` path in `insert_or_update_answers` is an
`Option` failure.  Timestamps (`datetime.utcnow()`) are abstracted as `Nat`
parameters; row ids (SQLite `INTEGER PRIMARY KEY` rowids) are modelled by
per-table counters, which preserves freshness and distinctness of ids.
-/

namespace LlmQna

/-! ## Text normalizer (`clean_text`)

Python string primitives used by `clean_text` are embedded over `List Char`:
`str.splitlines`, `str.rstrip`, `str.strip`, `str.replace` on single
characters, and `"\n".join`.  The whitespace and line-boundary character sets
are the ones CPython uses for `str` objects. -/

/-- The characters Python's `str.strip` / `str.rstrip` treat as whitespace
(`str.isspace`). -/
def isPySpace (c : Char) : Bool :=
  c == ' ' || c == '\t' || c == '\n' || c == '\x0b' || c == '\x0c' || c == '\r' ||
  c == '\x1c' || c == '\x1d' || c == '\x1e' || c == '\x1f' || c == '\x85' ||
  c == '\u00A0' || c == '\u1680' || (0x2000 ≤ c.toNat && c.toNat ≤ 0x200a) ||
  c == '\u2028' || c == '\u2029' || c == '\u202F' || c == '\u205F' || c == '\u3000'

/-- The line-boundary characters of Python's `str.splitlines`. -/
def isLineBreak (c : Char) : Bool :=
  c == '\n' || c == '\r' || c == '\x0b' || c == '\x0c' || c == '\x1c' ||
  c == '\x1d' || c == '\x1e' || c == '\x85' || c == '\u2028' || c == '\u2029'

/-- The character substitution performed by
`s.replace("\r", "\n").replace("\u00A0", " ")`; both replacements are on
single characters, so together they are a character-wise map. -/
def pyReplChar (c : Char) : Char :=
  if c == '\r' then '\n' else if c == '\u00A0' then ' ' else c

/-- Prepend a character to the first line of a line list (helper for
`pySplitlines`). -/
def consHead (c : Char) : List (List Char) → List (List Char)
  | [] => [[c]]
  | l :: ls => (c :: l) :: ls

/-- Python's `str.splitlines`: splits at every line-boundary character,
treating the two-character sequence CR LF as a single boundary, and does not
produce a final empty line for a trailing boundary. -/
def pySplitlines : List Char → List (List Char)
  | [] => []
  | '\r' :: '\n' :: rest => [] :: pySplitlines rest
  | c :: rest =>
    if isLineBreak c then [] :: pySplitlines rest else consHead c (pySplitlines rest)

/-- Python's `str.rstrip()` (no argument): drop trailing whitespace. -/
def rstripL (l : List Char) : List Char := (l.reverse.dropWhile isPySpace).reverse

/-- Python's `str.lstrip()`: drop leading whitespace. -/
def lstripL (l : List Char) : List Char := l.dropWhile isPySpace

/-- Python's `str.strip()`: drop leading and trailing whitespace. -/
def stripL (l : List Char) : List Char := rstripL (lstripL l)

/-- Python's `"\n".join(lines)`. -/
def joinNl (ls : List (List Char)) : List Char := List.intercalate ['\n'] ls

/-- The body of `clean_text` on a present string (character-list level):
`s.replace("\r", "\n").replace("\u00A0", " ")`, then
`"\n".join(line.rstrip() for line in s.splitlines())`, then `s.strip()`,
returning `none` for an empty final result (`return s if s else None`). -/
def cleanChars (l : List Char) : Option (List Char) :=
  let s1 := l.map pyReplChar
  let s2 := joinNl ((pySplitlines s1).map rstripL)
  let s3 := stripL s2
  if s3.isEmpty then none else some s3

/-- `clean_text(s)` from `load_llm_qna.py`.  `None` maps to `None`; a present
value is coerced with `str(s)` (identity on the modelled string domain) and
cleaned; an empty cleaned result becomes `None`. -/
def clean_text : Option String → Option String
  | none => none
  | some s => (cleanChars s.data).map String.mk

/-! ### Proof-level views of the splitting pipeline

`clean_text` feeds `pySplitlines` only carriage-return-free strings (the CR
replacement runs first), where the CR LF special case is vacuous; `splitNl`
is that restriction, proved equal on such inputs below.  `dropTrailEmpty`
and `lstripSegs` describe, at the line-list level, what `str.strip` does to
a joined line list; they appear only in proofs. -/

/-- `pySplitlines` without the CR LF case (equal to it on CR-free input). -/
def splitNl : List Char → List (List Char)
  | [] => []
  | c :: rest =>
    if isLineBreak c then [] :: splitNl rest else consHead c (splitNl rest)

/-- Drop all trailing empty lines of a line list. -/
def dropTrailEmpty : List (List Char) → List (List Char)
  | [] => []
  | x :: L =>
    match dropTrailEmpty L with
    | [] => if x.isEmpty then [] else [x]
    | y :: M => x :: y :: M

/-- Drop leading all-whitespace lines and left-strip the first remaining
line. -/
def lstripSegs : List (List Char) → List (List Char)
  | [] => []
  | x :: L => if (lstripL x).isEmpty then lstripSegs L else lstripL x :: L

/-! ## Relational store

The three tables the load path writes (`questions`, `models`, `answers`) are
modelled as lists of rows in insertion order, with the per-table rowid
counters that SQLite's `INTEGER PRIMARY KEY` supplies.  `create_schema` runs
DDL only (`CREATE TABLE IF NOT EXISTS`, indexes, FTS triggers), so on the
row level it is the identity; a freshly connected, never-written database is
`freshDB`. -/

/-- A row of `questions(id, text, created_at)`. -/
structure QRow where
  id : Nat
  text : String
  created_at : Nat
deriving DecidableEq, Repr

/-- A row of `models(id, name)`. -/
structure MRow where
  id : Nat
  name : String
deriving DecidableEq, Repr

/-- A row of `answers(id, question_id, model_id, answer_text, created_at)`.
The `tokens_used` / `latency_ms` columns are never written by the load path
(always NULL) and are omitted. -/
structure ARow where
  id : Nat
  question_id : Nat
  model_id : Nat
  answer_text : String
  created_at : Nat
deriving DecidableEq, Repr

/-- The mutable store: the three tables written by the loader, plus the next
fresh rowid for each. -/
structure DB where
  questions : List QRow
  models : List MRow
  answers : List ARow
  nextQid : Nat
  nextMid : Nat
  nextAid : Nat
deriving DecidableEq, Repr

/-- The state of a newly created, never-written SQLite database file. -/
def freshDB : DB := ⟨[], [], [], 1, 1, 1⟩

/-- `create_schema(con, with_fts)`: executes `SCHEMA_SQL` (and `FTS_SQL` when
enabled).  All statements are `CREATE ... IF NOT EXISTS` DDL and triggers;
no table row is inserted, deleted or updated, so on the modelled row level
the function is the identity on the store. -/
def create_schema (db : DB) (with_fts : Bool := true) : DB :=
  let _ := with_fts
  db

/-- A long record as produced by `read_table` and consumed by
`insert_or_update_answers`: `question_text`, `model_name`, `answer_text`,
each possibly absent (`None`/`NaN`). -/
structure LongRec where
  question_text : Option String
  model_name : Option String
  answer_text : Option String
deriving DecidableEq, Repr

/-- Python truthiness of an optional string: `None` and `""` are falsy. -/
def truthy : Option String → Bool
  | none => false
  | some s => !(s == "")

/-- Does `answers` contain a row for the pair `(qid, mid)`? -/
def hasPair (l : List ARow) (qid mid : Nat) : Bool :=
  l.any fun r => r.question_id == qid && r.model_id == mid

/-- The `DO UPDATE` arm of the answer upsert: overwrite `answer_text` and
`created_at` of the row(s) matching `(qid, mid)` (under the schema's UNIQUE
constraint there is at most one). -/
def updatePair (l : List ARow) (qid mid : Nat) (a : String) (now : Nat) : List ARow :=
  l.map fun r =>
    if r.question_id == qid && r.model_id == mid then
      { r with answer_text := a, created_at := now }
    else r

/-- One `INSERT INTO answers ... ON CONFLICT(question_id, model_id) DO UPDATE
SET answer_text=excluded.answer_text, created_at=excluded.created_at`. -/
def upsertAnswer (db : DB) (qid mid : Nat) (a : String) (now : Nat) : DB :=
  if hasPair db.answers qid mid then
    { db with answers := updatePair db.answers qid mid a now }
  else
    { db with answers := db.answers ++ [⟨db.nextAid, qid, mid, a, now⟩],
              nextAid := db.nextAid + 1 }

/-- The guard of the answer loop: `q and m and a` is truthy, i.e. all three
fields of the record are present and non-empty. -/
def isLoaded (r : LongRec) : Bool :=
  truthy r.question_text && truthy r.model_name && truthy r.answer_text

/-- `insert_or_update_answers(cur, rows, qid_map, model_map)`: walks the
records in order; a record whose `question_text`, `model_name` or
`answer_text` is absent or empty is skipped (`if not (q and m and a):
continue`) without incrementing the count; otherwise the identities are
resolved through the maps (`qid_map[q]`, `model_map[m]` — a missing key is
Python's `KeyError`, modelled as `none`) and one upsert statement runs.
Returns the final store and the count `n` of attempted upserts. -/
def insert_or_update_answers (qmap mmap : String → Option Nat) (now : Nat) :
    List LongRec → DB → Nat → Option (DB × Nat)
  | [], db, n => some (db, n)
  | r :: rest, db, n =>
    if isLoaded r then
      match qmap (r.question_text.getD ""), mmap (r.model_name.getD "") with
      | some qid, some mid =>
        insert_or_update_answers qmap mmap now rest
          (upsertAnswer db qid mid (r.answer_text.getD "") now) (n + 1)
      | _, _ => none
    else
      insert_or_update_answers qmap mmap now rest db n

/-- `upsert_questions(cur, questions)`: for each text in the given order,
`INSERT OR IGNORE INTO questions(text, created_at) VALUES (?, now)` (the
UNIQUE constraint on `text` makes the insert a no-op when the text is already
present), then `SELECT id, text FROM questions` to build `qid_map`.  The
returned row list stands for the fetched mapping. -/
def upsert_questions (db : DB) (qs : List String) (now : Nat) : DB × List QRow :=
  let db' := qs.foldl (fun d q =>
    if d.questions.any (fun r => r.text == q) then d
    else { d with questions := d.questions ++ [⟨d.nextQid, q, now⟩],
                  nextQid := d.nextQid + 1 }) db
  (db', db'.questions)

/-- One iteration of the model loop: skip a falsy (empty) name, otherwise
`INSERT OR IGNORE INTO models(name) VALUES (?)`. -/
def insertModelName (d : DB) (nm : String) : DB :=
  if nm == "" then d
  else if d.models.any (fun r => r.name == nm) then d
  else { d with models := d.models ++ [⟨d.nextMid, nm⟩],
                nextMid := d.nextMid + 1 }

/-- `upsert_model_ids(cur, model_names)`: iterates `sorted(set(model_names))`,
skipping falsy (empty) names, with `INSERT OR IGNORE INTO models(name)`,
then `SELECT id, name FROM models` to build `model_map`. -/
def upsert_model_ids (db : DB) (names : List String) : DB × List MRow :=
  let ordered := names.dedup.mergeSort (fun a b => a ≤ b)
  let db' := ordered.foldl insertModelName db
  (db', db'.models)

/-- The dictionary `qid_map` built from the fetched question rows: text →
id.  Texts are unique in the table, so first match suffices. -/
def qMapOf (rows : List QRow) (t : String) : Option Nat :=
  (rows.find? fun r => r.text == t).map (·.id)

/-- The dictionary `model_map` built from the fetched model rows: name →
id. -/
def mMapOf (rows : List MRow) (n : String) : Option Nat :=
  (rows.find? fun r => r.name == n).map (·.id)

/-! ## Derived views of the answer loop

`insert_or_update_answers` factors through the sequence of successful
writes: each guarded record contributes the resolved `(question_id,
model_id)` pair and its answer text.  `runSeq` replays those writes on the
`answers` table alone.  These derived forms are related to the source
function by a proved decomposition theorem below. -/

/-- The `(question_id, model_id)` key of an answer row. -/
def pairOf (r : ARow) : Nat × Nat := (r.question_id, r.model_id)

/-- The timestamp-free content of an answer row. -/
def rowKey (r : ARow) : Nat × Nat × Nat × String :=
  (r.id, r.question_id, r.model_id, r.answer_text)

/-- The writes attempted by the answer loop: for each guarded record, the
resolved identity pair and the answer text, in record order; `none` when
some guarded record misses one of the maps (the `KeyError` path). -/
def guardedSeq (qmap mmap : String → Option Nat) : List LongRec → Option (List ((Nat × Nat) × String))
  | [] => some []
  | r :: rest =>
    if isLoaded r then
      match qmap (r.question_text.getD ""), mmap (r.model_name.getD "") with
      | some qid, some mid =>
        (guardedSeq qmap mmap rest).map (fun s => ((qid, mid), r.answer_text.getD "") :: s)
      | _, _ => none
    else guardedSeq qmap mmap rest

/-- One answer upsert acting on the `answers` table and its rowid counter. -/
def upsertA (now : Nat) (p : Nat × Nat) (a : String) : List ARow × Nat → List ARow × Nat
  | (l, k) =>
    if hasPair l p.1 p.2 then (updatePair l p.1 p.2 a now, k)
    else (l ++ [⟨k, p.1, p.2, a, now⟩], k + 1)

/-- Replay a write sequence on the `answers` table. -/
def runSeq (now : Nat) : List ((Nat × Nat) × String) → List ARow × Nat → List ARow × Nat
  | [], s => s
  | e :: rest, s => runSeq now rest (upsertA now e.1 e.2 s)

/-- The answer text of the last write to pair `p` in a write sequence. -/
def lastWrite : List ((Nat × Nat) × String) → (Nat × Nat) → Option String
  | [], _ => none
  | e :: rest, p =>
    match lastWrite rest p with
    | some a => some a
    | none => if e.1 = p then some e.2 else none

/-- The effect of replaying a write sequence on one already-present row:
rows whose pair is written take the last written text and the new
timestamp; other rows are untouched. -/
def touch (now : Nat) (seq : List ((Nat × Nat) × String)) (r : ARow) : ARow :=
  match lastWrite seq (pairOf r) with
  | some a => { r with answer_text := a, created_at := now }
  | none => r

/-- The schema's uniqueness invariant on the `answers` table: at most one
row per `(question_id, model_id)` pair. -/
def PairsNodup (l : List ARow) : Prop :=
  l.Pairwise fun r1 r2 => pairOf r1 ≠ pairOf r2

/-- The answer text of the last record in the batch that passes the guard
and resolves to identity pair `p` through the maps (`none` when no record
does): the text that wins under last-write-wins semantics. -/
def lastWriteRows (qmap mmap : String → Option Nat) : List LongRec → (Nat × Nat) → Option String
  | [], _ => none
  | r :: rest, p =>
    match lastWriteRows qmap mmap rest p with
    | some a => some a
    | none =>
      if isLoaded r && (qmap (r.question_text.getD "") == some p.1)
          && (mmap (r.model_name.getD "") == some p.2) then
        some (r.answer_text.getD "")
      else none

/-- One call to the answer-upsert phase: its batch, identity maps and
timestamp. -/
structure Load where
  rows : List LongRec
  qmap : String → Option Nat
  mmap : String → Option Nat
  now : Nat

/-- A sequence of answer-upsert calls against one store; a failing call
(Python exception) aborts the sequence. -/
def runLoads : List Load → DB → Option DB
  | [], db => some db
  | L :: rest, db =>
    match insert_or_update_answers L.qmap L.mmap L.now L.rows db 0 with
    | some (db', _) => runLoads rest db'
    | none => none

/-! ## Batch identity sets (the orchestrator's `main`)

`main` feeds `upsert_model_ids` the deduplicated non-absent model names of
the batch (`long_df["model_name"].dropna().unique()`) and `upsert_questions`
the deduplicated non-absent question texts, both in first-occurrence
order. -/

/-- First-occurrence deduplication (pandas `Series.unique`). -/
def uniqueFirstAux (seen : List String) : List String → List String
  | [] => []
  | x :: rest =>
    if x ∈ seen then uniqueFirstAux seen rest
    else x :: uniqueFirstAux (x :: seen) rest

/-- First-occurrence deduplication from an empty seen set. -/
def uniqueFirst (l : List String) : List String := uniqueFirstAux [] l

/-- `long_df["model_name"].dropna().unique().tolist()`. -/
def batchModelNames (rows : List LongRec) : List String :=
  uniqueFirst (rows.filterMap (·.model_name))

/-- `long_df["question_text"].dropna().unique().tolist()`. -/
def batchQuestions (rows : List LongRec) : List String :=
  uniqueFirst (rows.filterMap (·.question_text))

/-! ## Tabular reader (`read_table`)

The pandas loading step (`read_excel` / sniff + `read_csv`) is a black-box
collaborator: the model takes the loaded table (`DataFrame`: column headers
plus a grid of optional cell strings, `none` = NaN) as input together with
the file's extension, and embeds everything `read_table` does after the
load: the two error checks, question-column selection, normalization, the
row drop, the wide→long melt, the column clean-ups and the empty-answer
filter.  `pd.melt` enumerates records grouped by value column: for each
model column in original order, all surviving rows in original order. -/

/-- `read_table`'s two fatal errors: `Unsupported file type` and
`Expected at least 2 columns`. -/
inductive ReadError where
  | unsupportedFormat
  | malformedInput
deriving DecidableEq, Repr

/-- Python's `str.lower()` on an extension (ASCII suffixes in practice). -/
def lowerStr (s : String) : String := ⟨s.data.map Char.toLower⟩

/-- The recognized extensions: `.xlsx`, `.xls` (Excel branch) and `.csv`
(delimited-text branch). -/
def isSupportedExt (ext : String) : Bool :=
  ext == ".xlsx" || ext == ".xls" || ext == ".csv"

/-- A loaded table: column headers and rows of optional cell strings
(`none` = missing value). -/
structure DataFrame where
  cols : List String
  cells : List (List (Option String))
deriving DecidableEq, Repr

/-- Question-column selection: the explicitly named column when it is truthy
and among the headers, else the first column (index 0). -/
def colIdx (cols : List String) (question_col : Option String) : Nat :=
  match question_col with
  | some q => if !(q == "") && cols.contains q then cols.indexOf q else 0
  | none => 0

/-- Cell of a row at column index `j` (`none` when absent). -/
def cellAt (row : List (Option String)) (j : Nat) : Option String :=
  (row.get? j).join

/-- The rows surviving `dropna(subset=["question_text"])` after the question
column is normalized with `clean_text`, paired with their cleaned question
text. -/
def survivors (df : DataFrame) (qi : Nat) : List (String × List (Option String)) :=
  df.cells.filterMap fun row => (clean_text (cellAt row qi)).map (fun q => (q, row))

/-- The indices of the model columns: every column except the question
column, in original order. -/
def modelIdxList (ncols qi : Nat) : List Nat :=
  (List.range ncols).filter fun j => j != qi

/-- `df.melt(id_vars=["question_text"], value_vars=model_cols, ...)`: one
raw long record per (model column, surviving row), grouped by model column
in original column order, rows in original order within each group. -/
def meltRaw (df : DataFrame) (qi : Nat) : List (String × String × Option String) :=
  (modelIdxList df.cols.length qi).flatMap fun j =>
    (survivors df qi).map fun qr => (qr.1, (df.cols.get? j).getD "", cellAt qr.2 j)

/-- Python's `str.strip()` on a `String`. -/
def pyStrip (s : String) : String := ⟨stripL s.data⟩

/-- The post-melt column clean-ups:
`long_df["model_name"].astype(str).str.strip()` and
`long_df["answer_text"].apply(clean_text)`. -/
def postClean (l : List (String × String × Option String)) : List LongRec :=
  l.map fun e => ⟨some e.1, some (pyStrip e.2.1), clean_text e.2.2⟩

/-- `read_table(path, sheet, question_col, keep_empty_answers)` after the
black-box pandas load: dispatch by (lower-cased) extension with the
unsupported-format error, the fewer-than-two-columns error, then the long
batch: melt, clean-ups, and (unless `keep_empty_answers`)
`dropna(subset=["answer_text"])`. -/
def read_table (suffix : String) (df : DataFrame) (question_col : Option String)
    (keep_empty_answers : Bool) : Except ReadError (List LongRec) :=
  if !(isSupportedExt (lowerStr suffix)) then .error .unsupportedFormat
  else if df.cols.length < 2 then .error .malformedInput
  else
    let qi := colIdx df.cols question_col
    let long := postClean (meltRaw df qi)
    .ok (if keep_empty_answers then long else long.filter fun r => r.answer_text.isSome)

/-- Modelled from the spec (§4.3, §8 "Reshape correctness", claim C3): the
claimed row-major output order of the reshape — "rows in original order,
and for each row, model columns in their original column order".  This
definition exists only to be compared against `meltRaw`, the order the code
produces. -/
def rowMajorMeltSpec (df : DataFrame) (qi : Nat) : List (String × String × Option String) :=
  (survivors df qi).flatMap fun qr =>
    (modelIdxList df.cols.length qi).map fun j => (qr.1, (df.cols.get? j).getD "", cellAt qr.2 j)

/-! ## Concrete data for witnesses and counterexamples -/

/-- Witness identity map for questions: `"q" ↦ 1`. -/
def exQmap : String → Option Nat := fun s => if s = "q" then some 1 else none

/-- Witness identity map for models: `"m" ↦ 1`. -/
def exMmap : String → Option Nat := fun s => if s = "m" then some 1 else none

/-- A one-record batch. -/
def exRows : List LongRec := [⟨some "q", some "m", some "x"⟩]

/-- The store after loading `exRows` into a fresh store at time 10. -/
def exDb1 : DB := ⟨[], [], [⟨1, 1, 1, "x", 10⟩], 1, 1, 2⟩

/-- A batch in which the pair `("q","m")` repeats with different texts. -/
def exRowsDup : List LongRec :=
  [⟨some "q", some "m", some "x"⟩, ⟨some "q", some "m", some "y"⟩,
   ⟨none, some "m", some "z"⟩]

/-- A 2-question × 2-model wide table with distinct answers. -/
def exDf : DataFrame :=
  ⟨["q", "m1", "m2"],
   [[some "q1", some "a11", some "a12"],
    [some "q2", some "a21", some "a22"]]⟩

/-- A wide table with an absent answer cell. -/
def exDfNa : DataFrame :=
  ⟨["q", "m1"], [[some "q1", some "a11"], [some "q2", none]]⟩

/-- A store already holding one question row. -/
def exDbQ : DB := ⟨[⟨1, "q1", 3⟩], [], [], 2, 1, 1⟩

/-! ## General list helpers -/

/-- Length of a `flatMap` whose pieces all have length `n`. -/
theorem flatMap_length_const {α β : Type} (xs : List α) (g : α → List β) (n : Nat)
    (h : ∀ x ∈ xs, (g x).length = n) : (xs.flatMap g).length = xs.length * n := by
  induction xs with
  | nil => simp
  | cons x rest ih =>
    simp only [List.flatMap_cons, List.length_append, List.length_cons]
    rw [h x (List.mem_cons_self x rest), ih fun y hy => h y (List.mem_cons_of_mem x hy)]
    ring

/-- Element lookup in a `flatMap` whose pieces all have length `n`. -/
theorem flatMap_get_const {α β : Type} (xs : List α) (g : α → List β) (n : Nat)
    (h : ∀ x ∈ xs, (g x).length = n) (j i : Nat) (hj : j < xs.length) (hi : i < n) :
    (xs.flatMap g).get? (j * n + i) = (g (xs.get ⟨j, hj⟩)).get? i := by
  induction xs generalizing j with
  | nil => simp at hj
  | cons x rest ih =>
    cases j with
    | zero =>
      have hx : (g x).length = n := h x (List.mem_cons_self x rest)
      simp only [List.flatMap_cons, Nat.zero_mul, Nat.zero_add]
      rw [List.get?_append (by omega)]
      rfl
    | succ j' =>
      have hx : (g x).length = n := h x (List.mem_cons_self x rest)
      have hj' : j' < rest.length := by simpa using hj
      simp only [List.flatMap_cons]
      rw [List.get?_append_right (by simp [hx]; nlinarith)]
      have harith : (j' + 1) * n + i - (g x).length = j' * n + i := by
        rw [hx]; ring_nf; omega
      rw [harith, ih (fun y hy => h y (List.mem_cons_of_mem x hy)) j' hj']
      rfl

/-! ## Claims about the text normalizer (C4) -/

/-- C4 counterexample: the spec claims
`clean_text("  a\r\nb \u00A0 \n  ") = "a\nb"`, but the code replaces the
carriage return of the CR LF pair by a line feed, producing two line feeds,
so the cleaned value is `"a\n\nb"`. -/
theorem clean_text_c4_counterexample :
    clean_text (some "  a\r\nb \u00A0 \n  ") ≠ some "a\nb" := by decide

/-- C4 (amended): `clean_text("  a\r\nb \u00A0 \n  ")` returns `"a\n\nb"`
(the CR of a CR LF pair becomes its own line break, the non-breaking space
collapses to a space, trailing whitespace of each line and surrounding
whitespace are stripped); `clean_text("")` and `clean_text(None)` return
absence-of-value, never an empty string. -/
theorem clean_text_normalization :
    clean_text (some "  a\r\nb \u00A0 \n  ") = some "a\n\nb" ∧
    clean_text (some "") = none ∧ clean_text none = none :=
  ⟨by decide, by decide, rfl⟩

/-! ## Claims about the tabular reader (C7, C8, C3) -/

/-- C7: `read_table` raises the unsupported-format error exactly when the
lower-cased extension is none of `.xlsx`, `.xls`, `.csv`, and raises the
malformed-input error exactly when the extension is supported but the
loaded table has fewer than two columns; with a supported extension and at
least two columns it raises neither. -/
theorem read_table_error_semantics (suffix : String) (df : DataFrame)
    (question_col : Option String) (keep_empty_answers : Bool) :
    (read_table suffix df question_col keep_empty_answers = .error .unsupportedFormat
      ↔ isSupportedExt (lowerStr suffix) = false) ∧
    (read_table suffix df question_col keep_empty_answers = .error .malformedInput
      ↔ (isSupportedExt (lowerStr suffix) = true ∧ df.cols.length < 2)) := by
  unfold read_table
  by_cases h1 : isSupportedExt (lowerStr suffix)
  · by_cases h2 : df.cols.length < 2
    · simp [h1, h2]
    · simp [h1, h2]
  · simp [h1]

/-- C8: with the default policy (`keep_empty_answers = false`) the returned
batch is the override batch with every absent-answer record removed, and
every record of the default batch has a present answer; with the override
the absent-answer records are retained. -/
theorem empty_answer_policy (suffix : String) (df : DataFrame)
    (question_col : Option String) (l : List LongRec)
    (h : read_table suffix df question_col true = .ok l) :
    read_table suffix df question_col false =
      .ok (l.filter fun r => r.answer_text.isSome) ∧
    ∀ r ∈ l.filter (fun r => r.answer_text.isSome), r.answer_text ≠ none := by
  unfold read_table at h ⊢
  by_cases h1 : isSupportedExt (lowerStr suffix)
  · by_cases h2 : df.cols.length < 2
    · simp [h1, h2] at h
    · simp only [h1, Bool.not_true, Bool.false_eq_true, if_false, h2, if_true,
        if_neg h2, Except.ok.injEq] at h ⊢
      refine ⟨by rw [h], ?_⟩
      intro r hr
      have := List.of_mem_filter hr
      simp only [Option.isSome_iff_exists] at this
      obtain ⟨a, ha⟩ := this
      simp [ha]
  · simp [h1] at h

/-- C3 counterexample: on a 2-question × 2-model table the reshape does not
emit records in the row-major order the spec states; `pd.melt` groups by
model column instead. -/
theorem reshape_order_counterexample :
    meltRaw exDf (colIdx exDf.cols none) ≠ rowMajorMeltSpec exDf (colIdx exDf.cols none) := by
  decide

/-- C3 (amended): for an input table with `R` surviving rows and `C` model
columns the reshape emits exactly `C × R` long records before the
empty-answer filter, ordered column-major: for each model column in original
column order, all surviving rows in original row order. -/
theorem reshape_count_and_order (df : DataFrame) (qi : Nat) :
    (meltRaw df qi).length =
      (modelIdxList df.cols.length qi).length * (survivors df qi).length ∧
    ∀ j i (hj : j < (modelIdxList df.cols.length qi).length)
        (hi : i < (survivors df qi).length),
      (meltRaw df qi).get? (j * (survivors df qi).length + i) =
        some (((survivors df qi).get ⟨i, hi⟩).1,
          (df.cols.get? ((modelIdxList df.cols.length qi).get ⟨j, hj⟩)).getD "",
          cellAt ((survivors df qi).get ⟨i, hi⟩).2
            ((modelIdxList df.cols.length qi).get ⟨j, hj⟩)) := by
  constructor
  · exact flatMap_length_const _ _ _ (fun x _ => by simp)
  · intro j i hj hi
    rw [meltRaw, flatMap_get_const _ _ (survivors df qi).length
      (fun x _ => by simp) j i hj hi]
    rw [List.get?_map, List.get?_eq_get hi]
    rfl

/-- C8 witness: concrete run on `exDfNa`, whose second row has an absent
answer cell. -/
theorem empty_answer_policy_witness :
    read_table ".csv" exDfNa none false =
      .ok (([⟨some "q1", some "m1", some "a11"⟩,
             ⟨some "q2", some "m1", none⟩] : List LongRec).filter
        fun r => r.answer_text.isSome) ∧
    ∀ r ∈ ([⟨some "q1", some "m1", some "a11"⟩,
            ⟨some "q2", some "m1", none⟩] : List LongRec).filter
        (fun r => r.answer_text.isSome), r.answer_text ≠ none :=
  empty_answer_policy ".csv" exDfNa none
    [⟨some "q1", some "m1", some "a11"⟩, ⟨some "q2", some "m1", none⟩] (by rfl)

/-- C3 witness: on `exDf` the record at flat position `1 * R + 0` (second
model-column group, first row) is row 1's answer for model column `m2`. -/
theorem reshape_count_and_order_witness :
    (meltRaw exDf 0).length =
      (modelIdxList exDf.cols.length 0).length * (survivors exDf 0).length ∧
    (meltRaw exDf 0).get? (1 * (survivors exDf 0).length + 0) =
      some ("q1", "m2", some "a12") := by
  refine ⟨(reshape_count_and_order exDf 0).1, ?_⟩
  have h := (reshape_count_and_order exDf 0).2 1 0 (by decide) (by decide)
  rw [h]
  decide

/-! ## The answer loop factors through its write sequence -/

/-- `upsertAnswer` only touches the `answers` table and its rowid counter,
exactly as `upsertA` describes. -/
theorem upsertAnswer_eq (db : DB) (qid mid : Nat) (a : String) (now : Nat) :
    upsertAnswer db qid mid a now =
      { db with answers := (upsertA now (qid, mid) a (db.answers, db.nextAid)).1,
                nextAid := (upsertA now (qid, mid) a (db.answers, db.nextAid)).2 } := by
  unfold upsertAnswer upsertA
  by_cases h : hasPair db.answers qid mid <;> simp [h]

/-- Rebuilding over an upserted store equals rebuilding over the original
store: `upsertAnswer` preserves every other field. -/
theorem upsertAnswer_rebuild (db : DB) (qid mid : Nat) (a : String) (now : Nat)
    (X : List ARow) (Y : Nat) :
    { upsertAnswer db qid mid a now with answers := X, nextAid := Y } =
      { db with answers := X, nextAid := Y } := by
  unfold upsertAnswer
  split <;> rfl

/-- Decomposition: `insert_or_update_answers` fails exactly when extracting
the write sequence fails, and otherwise replays the write sequence on the
`answers` table, adding the number of writes to the running count. -/
theorem insert_decomp (qmap mmap : String → Option Nat) (now : Nat) :
    ∀ (rows : List LongRec) (db : DB) (n : Nat),
      insert_or_update_answers qmap mmap now rows db n =
        (guardedSeq qmap mmap rows).map fun seq =>
          ({ db with answers := (runSeq now seq (db.answers, db.nextAid)).1,
                     nextAid := (runSeq now seq (db.answers, db.nextAid)).2 },
           n + seq.length) := by
  intro rows
  induction rows with
  | nil => intro db n; rfl
  | cons r rest ih =>
    intro db n
    simp only [insert_or_update_answers, guardedSeq]
    by_cases hg : isLoaded r
    · simp only [hg, if_true]
      cases hq : qmap (r.question_text.getD "") with
      | none => cases hm : mmap (r.model_name.getD "") <;> rfl
      | some qid =>
        cases hm : mmap (r.model_name.getD "") with
        | none => rfl
        | some mid =>
          show insert_or_update_answers qmap mmap now rest
              (upsertAnswer db qid mid (r.answer_text.getD "") now) (n + 1) =
            Option.map
              (fun seq =>
                ({ db with answers := (runSeq now seq (db.answers, db.nextAid)).1,
                           nextAid := (runSeq now seq (db.answers, db.nextAid)).2 },
                 n + seq.length))
              (Option.map (fun s => ((qid, mid), r.answer_text.getD "") :: s)
                (guardedSeq qmap mmap rest))
          rw [ih, Option.map_map]
          cases hgs : guardedSeq qmap mmap rest with
          | none => rfl
          | some seq =>
            simp only [Option.map_some', Function.comp_apply, Option.some.injEq,
              Prod.mk.injEq]
            constructor
            · rw [upsertAnswer_eq db qid mid (r.answer_text.getD "") now]
              rfl
            · simp only [List.length_cons]
              omega
    · simp only [hg, if_false]
      exact ih db n

/-! ## Presence and update lemmas for the answer table -/

/-- `hasPair` as an existential over rows. -/
theorem hasPair_iff (l : List ARow) (qid mid : Nat) :
    hasPair l qid mid = true ↔ ∃ r ∈ l, pairOf r = (qid, mid) := by
  simp [hasPair, pairOf, List.any_eq_true, Prod.ext_iff]

/-- Updating a pair's text never changes which pairs are present. -/
theorem hasPair_updatePair (l : List ARow) (qid mid : Nat) (a : String) (now q1 q2 : Nat) :
    hasPair (updatePair l qid mid a now) q1 q2 = hasPair l q1 q2 := by
  unfold hasPair updatePair
  rw [List.any_map]
  congr 1
  funext r
  by_cases hc : (r.question_id == qid && r.model_id == mid) = true <;>
    simp [Function.comp, hc]

/-- The update branch of `upsertA`. -/
theorem upsertA_pos (now : Nat) (p : Nat × Nat) (a : String) (l : List ARow) (k : Nat)
    (h : hasPair l p.1 p.2 = true) :
    upsertA now p a (l, k) = (updatePair l p.1 p.2 a now, k) := by
  simp only [upsertA]
  rw [if_pos h]

/-- The insert branch of `upsertA`. -/
theorem upsertA_neg (now : Nat) (p : Nat × Nat) (a : String) (l : List ARow) (k : Nat)
    (h : ¬hasPair l p.1 p.2 = true) :
    upsertA now p a (l, k) = (l ++ [⟨k, p.1, p.2, a, now⟩], k + 1) := by
  simp only [upsertA]
  rw [if_neg h]

/-- After an upsert at pair `p`, pair `p` is present. -/
theorem hasPair_upsertA_self (now : Nat) (p : Nat × Nat) (a : String) (s : List ARow × Nat) :
    hasPair (upsertA now p a s).1 p.1 p.2 = true := by
  rcases s with ⟨l, k⟩
  by_cases h : hasPair l p.1 p.2 = true
  · rw [upsertA_pos now p a l k h]
    show hasPair (updatePair l p.1 p.2 a now) p.1 p.2 = true
    rw [hasPair_updatePair]
    exact h
  · rw [upsertA_neg now p a l k h]
    show hasPair (l ++ [⟨k, p.1, p.2, a, now⟩]) p.1 p.2 = true
    simp [hasPair, List.any_append]

/-- An upsert preserves the presence of every pair. -/
theorem hasPair_upsertA_mono (now : Nat) (p : Nat × Nat) (a : String) (s : List ARow × Nat)
    (q1 q2 : Nat) (h : hasPair s.1 q1 q2 = true) :
    hasPair (upsertA now p a s).1 q1 q2 = true := by
  rcases s with ⟨l, k⟩
  by_cases hc : hasPair l p.1 p.2 = true
  · rw [upsertA_pos now p a l k hc]
    show hasPair (updatePair l p.1 p.2 a now) q1 q2 = true
    rw [hasPair_updatePair]
    exact h
  · rw [upsertA_neg now p a l k hc]
    show hasPair (l ++ [⟨k, p.1, p.2, a, now⟩]) q1 q2 = true
    unfold hasPair at h ⊢
    rw [List.any_append, h]
    rfl

/-- Replaying writes preserves the presence of every pair. -/
theorem runSeq_hasPair_mono (now : Nat) (seq : List ((Nat × Nat) × String)) :
    ∀ (s : List ARow × Nat) (q1 q2 : Nat), hasPair s.1 q1 q2 = true →
      hasPair (runSeq now seq s).1 q1 q2 = true := by
  induction seq with
  | nil => intro s q1 q2 h; exact h
  | cons e rest ih =>
    intro s q1 q2 h
    show hasPair (runSeq now rest (upsertA now e.1 e.2 s)).1 q1 q2 = true
    exact ih _ _ _ (hasPair_upsertA_mono now e.1 e.2 s q1 q2 h)

/-- After replaying a write sequence, every written pair is present. -/
theorem runSeq_pairs_present (now : Nat) (seq : List ((Nat × Nat) × String)) :
    ∀ (s : List ARow × Nat) (e : (Nat × Nat) × String), e ∈ seq →
      hasPair (runSeq now seq s).1 e.1.1 e.1.2 = true := by
  induction seq with
  | nil => intro s e he; cases he
  | cons f rest ih =>
    intro s e he
    show hasPair (runSeq now rest (upsertA now f.1 f.2 s)).1 e.1.1 e.1.2 = true
    rcases List.mem_cons.mp he with rfl | hmem
    · exact runSeq_hasPair_mono now rest _ _ _ (hasPair_upsertA_self now e.1 e.2 s)
    · exact ih _ _ hmem

/-! ## Replaying writes on an all-present table is a pointwise map -/

/-- `touch` with no writes is the identity. -/
theorem touch_nil (now : Nat) (r : ARow) : touch now [] r = r := rfl

/-- The composite of one text update and the `touch` of the remaining writes
is the `touch` of the whole sequence. -/
theorem touch_cons (now : Nat) (e : (Nat × Nat) × String)
    (rest : List ((Nat × Nat) × String)) (r : ARow) :
    touch now rest
      (if r.question_id == e.1.1 && r.model_id == e.1.2 then
        { r with answer_text := e.2, created_at := now } else r) =
    touch now (e :: rest) r := by
  by_cases hb : (r.question_id == e.1.1 && r.model_id == e.1.2) = true
  · have hc : e.1 = pairOf r := by
      simp only [Bool.and_eq_true, beq_iff_eq] at hb
      simp [pairOf, Prod.ext_iff, hb.1, hb.2]
    rw [if_pos hb]
    show touch now rest { r with answer_text := e.2, created_at := now } = _
    unfold touch
    simp only [lastWrite, pairOf]
    cases hlw : lastWrite rest (r.question_id, r.model_id) with
    | some a => rfl
    | none =>
      simp only [pairOf] at hc
      simp [hc]
  · have hc : e.1 ≠ pairOf r := by
      intro hcc
      apply hb
      have h1 : e.1.1 = r.question_id := congrArg Prod.fst hcc
      have h2 : e.1.2 = r.model_id := congrArg Prod.snd hcc
      simp [← h1, ← h2]
    rw [if_neg hb]
    unfold touch
    simp only [lastWrite]
    cases hlw : lastWrite rest (pairOf r) with
    | some a => rfl
    | none => simp [hc]

/-- When every written pair is already present, replaying the writes keeps
the table's length and order, leaves the rowid counter alone, and rewrites
each row by `touch`. -/
theorem runSeq_all_present (now : Nat) :
    ∀ (seq : List ((Nat × Nat) × String)) (l : List ARow) (k : Nat),
      (∀ e ∈ seq, hasPair l e.1.1 e.1.2 = true) →
      runSeq now seq (l, k) = (l.map (touch now seq), k) := by
  intro seq
  induction seq with
  | nil =>
    intro l k _
    show (l, k) = (l.map (touch now []), k)
    rw [show touch now [] = id from funext fun r => rfl, List.map_id]
  | cons e rest ih =>
    intro l k h
    have hp : hasPair l e.1.1 e.1.2 = true := h e (List.mem_cons_self e rest)
    show runSeq now rest (upsertA now e.1 e.2 (l, k)) = (l.map (touch now (e :: rest)), k)
    rw [upsertA_pos now e.1 e.2 l k hp]
    have hrest : ∀ f ∈ rest, hasPair (updatePair l e.1.1 e.1.2 e.2 now) f.1.1 f.1.2 = true := by
      intro f hf
      rw [hasPair_updatePair]
      exact h f (List.mem_cons_of_mem e hf)
    rw [ih _ _ hrest]
    unfold updatePair
    rw [List.map_map]
    have hmap : l.map (touch now rest ∘ fun r =>
        if r.question_id == e.1.1 && r.model_id == e.1.2 then
          { r with answer_text := e.2, created_at := now } else r) =
        l.map (touch now (e :: rest)) :=
      List.map_congr_left fun r _ => touch_cons now e rest r
    rw [hmap]

/-! ## Last write wins -/

/-- A write sequence has no last write to `p` exactly when it never writes
`p`. -/
theorem lastWrite_none_iff (seq : List ((Nat × Nat) × String)) (p : Nat × Nat) :
    lastWrite seq p = none ↔ ∀ e ∈ seq, e.1 ≠ p := by
  induction seq with
  | nil => simp [lastWrite]
  | cons e rest ih =>
    constructor
    · intro h f hf
      simp only [lastWrite] at h
      cases hlw : lastWrite rest p with
      | some a => rw [hlw] at h; exact absurd h (by simp)
      | none =>
        rw [hlw] at h
        have he : e.1 ≠ p := by
          intro hh
          rw [if_pos hh] at h
          exact absurd h (by simp)
        rcases List.mem_cons.mp hf with rfl | hmem
        · exact he
        · exact (ih.mp hlw) f hmem
    · intro h
      have hrest : lastWrite rest p = none :=
        ih.mpr fun f hf => h f (List.mem_cons_of_mem e hf)
      simp only [lastWrite, hrest]
      rw [if_neg (h e (List.mem_cons_self e rest))]

/-- Immediately after an upsert at `p` with text `a`, every row at `p`
carries `a`. -/
theorem upsertA_text_at_pair (now : Nat) (p : Nat × Nat) (a : String) (s : List ARow × Nat) :
    ∀ r ∈ (upsertA now p a s).1, pairOf r = p → r.answer_text = a := by
  rcases s with ⟨l, k⟩
  by_cases hc : hasPair l p.1 p.2 = true
  · rw [upsertA_pos now p a l k hc]
    intro r hr hpr
    have hr' : r ∈ updatePair l p.1 p.2 a now := hr
    rcases List.mem_map.mp hr' with ⟨r0, _, rfl⟩
    by_cases hb : (r0.question_id == p.1 && r0.model_id == p.2) = true
    · rw [if_pos hb]
    · exfalso
      apply hb
      rw [if_neg hb] at hpr
      have h1 : r0.question_id = p.1 := congrArg Prod.fst hpr
      have h2 : r0.model_id = p.2 := congrArg Prod.snd hpr
      simp [h1, h2]
  · rw [upsertA_neg now p a l k hc]
    intro r hr hpr
    have hr' : r ∈ l ++ [⟨k, p.1, p.2, a, now⟩] := hr
    rcases List.mem_append.mp hr' with hl | hnew
    · exact absurd ((hasPair_iff l p.1 p.2).mpr ⟨r, hl, hpr⟩) hc
    · rcases List.mem_singleton.mp hnew with rfl
      rfl

/-- Rows at a pair the remaining writes never touch keep their text. -/
theorem runSeq_keep_text (now : Nat) (p : Nat × Nat) (a : String) :
    ∀ (seq : List ((Nat × Nat) × String)) (s : List ARow × Nat),
      (∀ e ∈ seq, e.1 ≠ p) →
      (∀ r ∈ s.1, pairOf r = p → r.answer_text = a) →
      ∀ r ∈ (runSeq now seq s).1, pairOf r = p → r.answer_text = a := by
  intro seq
  induction seq with
  | nil => intro s _ h; exact h
  | cons e rest ih =>
    intro s hne h
    show ∀ r ∈ (runSeq now rest (upsertA now e.1 e.2 s)).1, pairOf r = p → r.answer_text = a
    apply ih
    · intro f hf
      exact hne f (List.mem_cons_of_mem e hf)
    · intro r hr hpr
      rcases s with ⟨l, k⟩
      by_cases hc : hasPair l e.1.1 e.1.2 = true
      · rw [upsertA_pos now e.1 e.2 l k hc] at hr
        have hr' : r ∈ updatePair l e.1.1 e.1.2 e.2 now := hr
        rcases List.mem_map.mp hr' with ⟨r0, hr0, rfl⟩
        by_cases hb : (r0.question_id == e.1.1 && r0.model_id == e.1.2) = true
        · exfalso
          apply hne e (List.mem_cons_self e rest)
          rw [if_pos hb] at hpr
          simp only [Bool.and_eq_true, beq_iff_eq] at hb
          have hpp : (r0.question_id, r0.model_id) = p := hpr
          rw [← hpp, hb.1, hb.2]
        · rw [if_neg hb] at hpr ⊢
          exact h r0 hr0 hpr
      · rw [upsertA_neg now e.1 e.2 l k hc] at hr
        have hr' : r ∈ l ++ [⟨k, e.1.1, e.1.2, e.2, now⟩] := hr
        rcases List.mem_append.mp hr' with hl | hnew
        · exact h r hl hpr
        · exfalso
          rcases List.mem_singleton.mp hnew with rfl
          exact hne e (List.mem_cons_self e rest) hpr

/-- Last write wins: after replaying a write sequence, every row at a
written pair carries the text of the last write to that pair. -/
theorem runSeq_lastWrite (now : Nat) :
    ∀ (seq : List ((Nat × Nat) × String)) (s : List ARow × Nat) (p : Nat × Nat) (a : String),
      lastWrite seq p = some a →
      ∀ r ∈ (runSeq now seq s).1, pairOf r = p → r.answer_text = a := by
  intro seq
  induction seq with
  | nil => intro s p a h; exact absurd h (by simp [lastWrite])
  | cons e rest ih =>
    intro s p a h
    show ∀ r ∈ (runSeq now rest (upsertA now e.1 e.2 s)).1, pairOf r = p → r.answer_text = a
    cases hlw : lastWrite rest p with
    | some b =>
      have hba : b = a := by
        simp only [lastWrite, hlw] at h
        exact Option.some.inj h
      subst hba
      exact ih _ _ _ hlw
    | none =>
      simp only [lastWrite, hlw] at h
      by_cases hep : e.1 = p
      · rw [if_pos hep] at h
        have hea : e.2 = a := Option.some.inj h
        subst hea hep
        exact runSeq_keep_text now e.1 e.2 rest _
          ((lastWrite_none_iff rest e.1).mp hlw)
          (upsertA_text_at_pair now e.1 e.2 s)
      · rw [if_neg hep] at h
        exact absurd h (by simp)

/-! ## The write sequence of a batch -/

/-- A successful write-sequence extraction has one write per guarded
record. -/
theorem guardedSeq_length (qmap mmap : String → Option Nat) :
    ∀ (rows : List LongRec) (seq : List ((Nat × Nat) × String)),
      guardedSeq qmap mmap rows = some seq →
      seq.length = (rows.filter isLoaded).length := by
  intro rows
  induction rows with
  | nil =>
    intro seq h
    cases Option.some.inj h
    rfl
  | cons r rest ih =>
    intro seq h
    simp only [guardedSeq] at h
    by_cases hg : isLoaded r
    · rw [if_pos hg] at h
      cases hq : qmap (r.question_text.getD "") with
      | none => rw [hq] at h; cases hm : mmap (r.model_name.getD "") <;> rw [hm] at h <;> cases h
      | some qid =>
        rw [hq] at h
        cases hm : mmap (r.model_name.getD "") with
        | none => rw [hm] at h; cases h
        | some mid =>
          rw [hm] at h
          cases hgs : guardedSeq qmap mmap rest with
          | none => rw [hgs] at h; cases h
          | some seq' =>
            rw [hgs] at h
            cases Option.some.inj h
            simp only [List.filter_cons, hg, if_true, List.length_cons]
            rw [ih seq' hgs]
    · rw [if_neg hg] at h
      simp only [List.filter_cons, hg]
      exact ih seq h

/-- The last write to a pair in the extracted sequence is the last guarded
record of the batch resolving to that pair. -/
theorem guardedSeq_lastWrite (qmap mmap : String → Option Nat) :
    ∀ (rows : List LongRec) (seq : List ((Nat × Nat) × String)),
      guardedSeq qmap mmap rows = some seq →
      ∀ p, lastWrite seq p = lastWriteRows qmap mmap rows p := by
  intro rows
  induction rows with
  | nil =>
    intro seq h p
    cases Option.some.inj h
    rfl
  | cons r rest ih =>
    intro seq h p
    simp only [guardedSeq] at h
    by_cases hg : isLoaded r
    · rw [if_pos hg] at h
      cases hq : qmap (r.question_text.getD "") with
      | none => rw [hq] at h; cases hm : mmap (r.model_name.getD "") <;> rw [hm] at h <;> cases h
      | some qid =>
        rw [hq] at h
        cases hm : mmap (r.model_name.getD "") with
        | none => rw [hm] at h; cases h
        | some mid =>
          rw [hm] at h
          cases hgs : guardedSeq qmap mmap rest with
          | none => rw [hgs] at h; cases h
          | some seq' =>
            rw [hgs] at h
            cases Option.some.inj h
            show (match lastWrite seq' p with
              | some a => some a
              | none => if ((qid, mid), r.answer_text.getD "").1 = p
                  then some ((qid, mid), r.answer_text.getD "").2 else none) =
              lastWriteRows qmap mmap (r :: rest) p
            rw [ih seq' hgs p]
            simp only [lastWriteRows]
            cases lastWriteRows qmap mmap rest p with
            | some a => rfl
            | none =>
              simp only [hg, hq, hm, Bool.true_and]
              by_cases hep : (qid, mid) = p
              · have h1 : qid = p.1 := congrArg Prod.fst hep
                have h2 : mid = p.2 := congrArg Prod.snd hep
                rw [if_pos hep, if_pos (by simp [h1, h2])]
              · have hcond : ¬((((some qid : Option Nat) == some p.1) &&
                    ((some mid : Option Nat) == some p.2)) = true) := by
                  intro hh
                  simp only [Bool.and_eq_true, beq_iff_eq, Option.some.injEq] at hh
                  exact hep (Prod.ext_iff.mpr ⟨hh.1, hh.2⟩)
                rw [if_neg hep, if_neg hcond]
    · rw [if_neg hg] at h
      rw [ih seq h p]
      simp only [lastWriteRows]
      cases lastWriteRows qmap mmap rest p with
      | some a => rfl
      | none =>
        simp only [hg]
        rw [if_neg (by simp)]

/-! ## Claim C1: idempotence of the answer-upsert phase -/

/-- C1: re-running the answer-upsert phase with the same batch and identity
maps succeeds with the same count, creates zero new rows, leaves every row's
id, identities and `answer_text` unchanged (only timestamps of matched rows
may move), leaves `questions`/`models` untouched, and leaves rows whose pair
the batch never writes entirely unchanged. -/
theorem answer_upsert_idempotent
    (qmap mmap : String → Option Nat) (rows : List LongRec)
    (db db1 : DB) (now now' n1 : Nat)
    (h : insert_or_update_answers qmap mmap now rows db 0 = some (db1, n1)) :
    ∃ db2 : DB,
      insert_or_update_answers qmap mmap now' rows db1 0 = some (db2, n1) ∧
      db2.answers.length = db1.answers.length ∧
      db2.answers.map rowKey = db1.answers.map rowKey ∧
      db2.questions = db1.questions ∧ db2.models = db1.models ∧
      ∀ i r, db1.answers.get? i = some r →
        lastWriteRows qmap mmap rows (pairOf r) = none →
        db2.answers.get? i = some r := by
  have hdec := insert_decomp qmap mmap now rows db 0
  rw [h] at hdec
  cases hgs : guardedSeq qmap mmap rows with
  | none => rw [hgs] at hdec; cases hdec
  | some seq =>
    rw [hgs] at hdec
    simp only [Option.map_some', Option.some.injEq, Prod.mk.injEq] at hdec
    obtain ⟨hdb1, hn1⟩ := hdec
    have hanswers : db1.answers = (runSeq now seq (db.answers, db.nextAid)).1 := by
      rw [hdb1]
    have hnext : db1.nextAid = (runSeq now seq (db.answers, db.nextAid)).2 := by
      rw [hdb1]
    have hpres : ∀ e ∈ seq,
        hasPair (runSeq now seq (db.answers, db.nextAid)).1 e.1.1 e.1.2 = true :=
      fun e he => runSeq_pairs_present now seq (db.answers, db.nextAid) e he
    have hrun2 : runSeq now' seq
        ((runSeq now seq (db.answers, db.nextAid)).1,
         (runSeq now seq (db.answers, db.nextAid)).2) =
        ((runSeq now seq (db.answers, db.nextAid)).1.map (touch now' seq),
         (runSeq now seq (db.answers, db.nextAid)).2) :=
      runSeq_all_present now' seq _ _ hpres
    have hdec2 := insert_decomp qmap mmap now' rows db1 0
    rw [hgs] at hdec2
    simp only [Option.map_some'] at hdec2
    rw [hanswers, hnext, hrun2] at hdec2
    have hfinal : insert_or_update_answers qmap mmap now' rows db1 0 =
        some ({ db1 with
          answers := (runSeq now seq (db.answers, db.nextAid)).1.map (touch now' seq),
          nextAid := (runSeq now seq (db.answers, db.nextAid)).2 }, n1) := by
      rw [hn1]
      exact hdec2
    refine ⟨_, hfinal, ?_, ?_, rfl, rfl, ?_⟩
    · show ((runSeq now seq (db.answers, db.nextAid)).1.map (touch now' seq)).length =
        db1.answers.length
      rw [hanswers, List.length_map]
    · show ((runSeq now seq (db.answers, db.nextAid)).1.map (touch now' seq)).map rowKey =
        db1.answers.map rowKey
      rw [hanswers, List.map_map]
      refine List.map_congr_left ?_
      intro r hr
      show rowKey (touch now' seq r) = rowKey r
      unfold touch
      cases hlw : lastWrite seq (pairOf r) with
      | none => rfl
      | some a =>
        have hta : r.answer_text = a :=
          runSeq_lastWrite now seq (db.answers, db.nextAid) (pairOf r) a hlw r hr rfl
        simp [rowKey, hta]
    · intro i r hget hnone
      rw [hanswers] at hget
      show ((runSeq now seq (db.answers, db.nextAid)).1.map (touch now' seq)).get? i = some r
      rw [List.get?_map, hget]
      have hlw : lastWrite seq (pairOf r) = none := by
        rw [guardedSeq_lastWrite qmap mmap rows seq hgs (pairOf r)]
        exact hnone
      show some (touch now' seq r) = some r
      unfold touch
      rw [hlw]

/-- C1 witness: one record, loaded into a fresh store at time 10, re-run at
time 20. -/
theorem answer_upsert_idempotent_witness :
    ∃ db2 : DB, insert_or_update_answers exQmap exMmap 20 exRows exDb1 0 = some (db2, 1) := by
  obtain ⟨db2, hh⟩ :=
    answer_upsert_idempotent exQmap exMmap exRows freshDB exDb1 10 20 1 (by decide)
  exact ⟨db2, hh.1⟩

/-! ## Claim C5: count, silent skip, last-write-wins -/

/-- C5: a successful answer-upsert run counts exactly the records passing
the three-field guard (absent-field records are skipped silently, without
failing the run), and the final text at every written pair is the last
guarded occurrence's text — so the count can exceed the number of distinct
pairs when a pair repeats. -/
theorem answer_upsert_count_and_last_write
    (qmap mmap : String → Option Nat) (now : Nat) (rows : List LongRec)
    (db db' : DB) (n' : Nat)
    (h : insert_or_update_answers qmap mmap now rows db 0 = some (db', n')) :
    n' = (rows.filter isLoaded).length ∧
    ∀ p a, lastWriteRows qmap mmap rows p = some a →
      ∀ r ∈ db'.answers, pairOf r = p → r.answer_text = a := by
  have hdec := insert_decomp qmap mmap now rows db 0
  rw [h] at hdec
  cases hgs : guardedSeq qmap mmap rows with
  | none => rw [hgs] at hdec; cases hdec
  | some seq =>
    rw [hgs] at hdec
    simp only [Option.map_some', Option.some.injEq, Prod.mk.injEq] at hdec
    obtain ⟨hdb, hn⟩ := hdec
    constructor
    · rw [hn, Nat.zero_add, guardedSeq_length qmap mmap rows seq hgs]
    · intro p a hlwa r hr hpr
      rw [hdb] at hr
      have hr' : r ∈ (runSeq now seq (db.answers, db.nextAid)).1 := hr
      have hlw : lastWrite seq p = some a := by
        rw [guardedSeq_lastWrite qmap mmap rows seq hgs p]
        exact hlwa
      exact runSeq_lastWrite now seq (db.answers, db.nextAid) p a hlw r hr' hpr

/-- C5 witness: the pair `("q","m")` repeats in `exRowsDup` and a third
record has an absent question; the count is 2 (not 1, not 3) and the last
text `"y"` wins. -/
theorem answer_upsert_count_witness :
    2 = (exRowsDup.filter isLoaded).length ∧
    ∀ p a, lastWriteRows exQmap exMmap exRowsDup p = some a →
      ∀ r ∈ (⟨[], [], [⟨1, 1, 1, "y", 10⟩], 1, 1, 2⟩ : DB).answers,
        pairOf r = p → r.answer_text = a :=
  answer_upsert_count_and_last_write exQmap exMmap 10 exRowsDup freshDB
    ⟨[], [], [⟨1, 1, 1, "y", 10⟩], 1, 1, 2⟩ 2 (by decide)

/-! ## Claim C2: uniqueness of `(question_id, model_id)` -/

/-- Rewriting a pair's text preserves the row's identity pair. -/
theorem pairOf_update (qid mid : Nat) (a : String) (now : Nat) (r : ARow) :
    pairOf (if r.question_id == qid && r.model_id == mid then
      { r with answer_text := a, created_at := now } else r) = pairOf r := by
  split <;> rfl

/-- The update branch preserves pair uniqueness. -/
theorem pairsNodup_updatePair (l : List ARow) (qid mid : Nat) (a : String) (now : Nat)
    (h : PairsNodup l) : PairsNodup (updatePair l qid mid a now) := by
  unfold PairsNodup updatePair
  rw [List.pairwise_map]
  exact h.imp fun {r1 r2} h12 => by
    rw [pairOf_update, pairOf_update]
    exact h12

/-- One upsert preserves pair uniqueness. -/
theorem pairsNodup_upsertA (now : Nat) (p : Nat × Nat) (a : String) (l : List ARow) (k : Nat)
    (h : PairsNodup l) : PairsNodup (upsertA now p a (l, k)).1 := by
  by_cases hc : hasPair l p.1 p.2 = true
  · rw [upsertA_pos now p a l k hc]
    exact pairsNodup_updatePair l p.1 p.2 a now h
  · rw [upsertA_neg now p a l k hc]
    show PairsNodup (l ++ [⟨k, p.1, p.2, a, now⟩])
    unfold PairsNodup
    rw [List.pairwise_append]
    refine ⟨h, List.pairwise_singleton _ _, ?_⟩
    intro r hr r' hr'
    rcases List.mem_singleton.mp hr' with rfl
    intro heq
    apply hc
    exact (hasPair_iff l p.1 p.2).mpr ⟨r, hr, heq⟩

/-- Replaying any write sequence preserves pair uniqueness. -/
theorem pairsNodup_runSeq (now : Nat) (seq : List ((Nat × Nat) × String)) :
    ∀ s : List ARow × Nat, PairsNodup s.1 → PairsNodup (runSeq now seq s).1 := by
  induction seq with
  | nil => intro s h; exact h
  | cons e rest ih =>
    intro s h
    show PairsNodup (runSeq now rest (upsertA now e.1 e.2 s)).1
    apply ih
    rcases s with ⟨l, k⟩
    exact pairsNodup_upsertA now e.1 e.2 l k h

/-- One successful answer-upsert call preserves pair uniqueness. -/
theorem pairsNodup_insert (qmap mmap : String → Option Nat) (now : Nat)
    (rows : List LongRec) (db db' : DB) (n n' : Nat)
    (h : insert_or_update_answers qmap mmap now rows db n = some (db', n'))
    (hd : PairsNodup db.answers) : PairsNodup db'.answers := by
  have hdec := insert_decomp qmap mmap now rows db n
  rw [h] at hdec
  cases hgs : guardedSeq qmap mmap rows with
  | none => rw [hgs] at hdec; cases hdec
  | some seq =>
    rw [hgs] at hdec
    simp only [Option.map_some', Option.some.injEq, Prod.mk.injEq] at hdec
    rw [hdec.1]
    exact pairsNodup_runSeq now seq (db.answers, db.nextAid) hd

/-- Any chain of answer-upsert calls preserves pair uniqueness. -/
theorem pairsNodup_runLoads :
    ∀ (loads : List Load) (db db' : DB), runLoads loads db = some db' →
      PairsNodup db.answers → PairsNodup db'.answers := by
  intro loads
  induction loads with
  | nil =>
    intro db db' h hd
    cases Option.some.inj h
    exact hd
  | cons L rest ih =>
    intro db db' h hd
    simp only [runLoads] at h
    cases hins : insert_or_update_answers L.qmap L.mmap L.now L.rows db 0 with
    | none => rw [hins] at h; cases h
    | some pr =>
      rcases pr with ⟨db'', m⟩
      rw [hins] at h
      exact ih db'' db' h
        (pairsNodup_insert L.qmap L.mmap L.now L.rows db db'' 0 m hins hd)

/-- C2: after any sequence of answer-upsert calls against a store created by
`create_schema` on a fresh database, at most one answer row exists per
`(question_id, model_id)` pair. -/
theorem answers_pair_unique (loads : List Load) (db' : DB)
    (h : runLoads loads (create_schema freshDB) = some db') :
    PairsNodup db'.answers :=
  pairsNodup_runLoads loads (create_schema freshDB) db' h List.Pairwise.nil

/-- C2 witness: one load of a batch with a repeated pair. -/
theorem answers_pair_unique_witness :
    PairsNodup (⟨[], [], [⟨1, 1, 1, "y", 10⟩], 1, 1, 2⟩ : DB).answers :=
  answers_pair_unique [⟨exRowsDup, exQmap, exMmap, 10⟩]
    ⟨[], [], [⟨1, 1, 1, "y", 10⟩], 1, 1, 2⟩ (by decide)

/-! ## Claim C6: questions are immutable on re-load -/

/-- One step of the `INSERT OR IGNORE` loop of `upsert_questions`. -/
theorem upsert_questions_cons (db : DB) (q : String) (rest : List String) (now : Nat) :
    upsert_questions db (q :: rest) now =
      upsert_questions (if db.questions.any (fun r => r.text == q) then db
        else { db with questions := db.questions ++ [⟨db.nextQid, q, now⟩],
                       nextQid := db.nextQid + 1 }) rest now := rfl

/-- C6: `upsert_questions` only ever appends: every pre-existing question
row survives unchanged — same id, text and `created_at`, in place — and the
appended rows carry the new timestamp and texts that were not yet present
(so a timestamp is assigned only at first insertion). -/
theorem question_immutable_on_reload (qs : List String) (now : Nat) (db : DB) :
    ∃ new, (upsert_questions db qs now).1.questions = db.questions ++ new ∧
      ∀ r ∈ new, r.created_at = now ∧ ∀ r0 ∈ db.questions, r0.text ≠ r.text := by
  induction qs generalizing db with
  | nil => exact ⟨[], by simp [upsert_questions], by simp⟩
  | cons q rest ih =>
    rw [upsert_questions_cons]
    by_cases hq : db.questions.any (fun r => r.text == q) = true
    · rw [if_pos hq]
      exact ih db
    · rw [if_neg hq]
      obtain ⟨new, h1, h2⟩ := ih { db with
        questions := db.questions ++ [⟨db.nextQid, q, now⟩],
        nextQid := db.nextQid + 1 }
      refine ⟨⟨db.nextQid, q, now⟩ :: new, ?_, ?_⟩
      · rw [h1]
        show (db.questions ++ [⟨db.nextQid, q, now⟩]) ++ new =
          db.questions ++ (⟨db.nextQid, q, now⟩ :: new)
        simp
      · intro r hr
        rcases List.mem_cons.mp hr with rfl | hmem
        · refine ⟨rfl, ?_⟩
          intro r0 hr0 heq
          exact hq (List.any_eq_true.mpr ⟨r0, hr0, by simp [heq]⟩)
        · obtain ⟨hc, hn⟩ := h2 r hmem
          refine ⟨hc, ?_⟩
          intro r0 hr0
          exact hn r0 (List.mem_append.mpr (Or.inl hr0))

/-! ## Claim C9: resolved identities cannot be missing -/

/-- Membership in the first-occurrence deduplication. -/
theorem uniqueFirstAux_mem :
    ∀ (l seen : List String) (x : String),
      x ∈ uniqueFirstAux seen l ↔ x ∈ l ∧ x ∉ seen := by
  intro l
  induction l with
  | nil => intro seen x; simp [uniqueFirstAux]
  | cons y rest ih =>
    intro seen x
    simp only [uniqueFirstAux]
    by_cases hy : y ∈ seen
    · rw [if_pos hy, ih seen x]
      constructor
      · rintro ⟨hx, hnx⟩
        exact ⟨List.mem_cons_of_mem y hx, hnx⟩
      · rintro ⟨hx, hnx⟩
        rcases List.mem_cons.mp hx with rfl | hm
        · exact absurd hy hnx
        · exact ⟨hm, hnx⟩
    · rw [if_neg hy]
      constructor
      · intro hx
        rcases List.mem_cons.mp hx with rfl | hm
        · exact ⟨List.mem_cons_self x rest, hy⟩
        · obtain ⟨h1, h2⟩ := (ih (y :: seen) x).mp hm
          exact ⟨List.mem_cons_of_mem y h1,
            fun hc => h2 (List.mem_cons_of_mem y hc)⟩
      · rintro ⟨hx, hnx⟩
        rcases List.mem_cons.mp hx with rfl | hm
        · exact List.mem_cons_self x _
        · by_cases hxy : x = y
          · subst hxy
            exact List.mem_cons_self x _
          · refine List.mem_cons_of_mem y ((ih (y :: seen) x).mpr ⟨hm, ?_⟩)
            intro hc
            rcases List.mem_cons.mp hc with h | h
            · exact hxy h
            · exact hnx h

/-- `uniqueFirst` keeps exactly the values of the input. -/
theorem uniqueFirst_mem (l : List String) (x : String) :
    x ∈ uniqueFirst l ↔ x ∈ l := by
  unfold uniqueFirst
  rw [uniqueFirstAux_mem]
  simp

/-- `upsert_questions` never deletes a question row. -/
theorem upsert_questions_grow (qs : List String) (now : Nat) (db : DB) :
    ∀ r ∈ db.questions, r ∈ (upsert_questions db qs now).1.questions := by
  induction qs generalizing db with
  | nil => intro r hr; exact hr
  | cons q rest ih =>
    intro r hr
    rw [upsert_questions_cons]
    by_cases hq : db.questions.any (fun r => r.text == q) = true
    · rw [if_pos hq]
      exact ih db r hr
    · rw [if_neg hq]
      exact ih _ r (List.mem_append.mpr (Or.inl hr))

/-- Every text passed to `upsert_questions` ends up present in the questions
table that the read-back maps over. -/
theorem upsert_questions_mem (qs : List String) (now : Nat) (db : DB) :
    ∀ q ∈ qs, ∃ r ∈ (upsert_questions db qs now).1.questions, r.text = q := by
  induction qs generalizing db with
  | nil => intro q hq; cases hq
  | cons q' rest ih =>
    intro q hq
    rw [upsert_questions_cons]
    rcases List.mem_cons.mp hq with rfl | hm
    · by_cases hqy : db.questions.any (fun r => r.text == q) = true
      · rw [if_pos hqy]
        obtain ⟨r, hr, hrt⟩ := List.any_eq_true.mp hqy
        exact ⟨r, upsert_questions_grow rest now db r hr, by simpa using hrt⟩
      · rw [if_neg hqy]
        exact ⟨⟨db.nextQid, q, now⟩,
          upsert_questions_grow rest now _ _
            (List.mem_append.mpr (Or.inr (List.mem_singleton.mpr rfl))), rfl⟩
    · by_cases hqy : db.questions.any (fun r => r.text == q') = true
      · rw [if_pos hqy]
        exact ih db q hm
      · rw [if_neg hqy]
        exact ih _ q hm

/-- The model loop never deletes a model row. -/
theorem modelLoop_grow :
    ∀ (l : List String) (db : DB), ∀ r ∈ db.models,
      r ∈ (l.foldl insertModelName db).models := by
  intro l
  induction l with
  | nil => intro db r hr; exact hr
  | cons nm rest ih =>
    intro db r hr
    rw [List.foldl_cons]
    apply ih
    unfold insertModelName
    split
    · exact hr
    · split
      · exact hr
      · exact List.mem_append.mpr (Or.inl hr)

/-- Every non-empty name fed through the model loop ends up present. -/
theorem modelLoop_mem :
    ∀ (l : List String) (db : DB), ∀ nm ∈ l, nm ≠ "" →
      ∃ r ∈ (l.foldl insertModelName db).models, r.name = nm := by
  intro l
  induction l with
  | nil => intro db nm hnm; cases hnm
  | cons nm' rest ih =>
    intro db nm hnm hne
    rw [List.foldl_cons]
    rcases List.mem_cons.mp hnm with rfl | hm
    · have hstep : ∃ r ∈ (insertModelName db nm).models, r.name = nm := by
        unfold insertModelName
        rw [if_neg (by simpa using hne)]
        by_cases hany : db.models.any (fun r => r.name == nm) = true
        · rw [if_pos hany]
          obtain ⟨r, hr, hrt⟩ := List.any_eq_true.mp hany
          exact ⟨r, hr, by simpa using hrt⟩
        · rw [if_neg hany]
          exact ⟨⟨db.nextMid, nm⟩,
            List.mem_append.mpr (Or.inr (List.mem_singleton.mpr rfl)), rfl⟩
      obtain ⟨r, hr, hrt⟩ := hstep
      exact ⟨r, modelLoop_grow rest _ r hr, hrt⟩
    · exact ih _ nm hm hne

/-- Every non-empty name passed to `upsert_model_ids` is present in the
model rows the read-back maps over. -/
theorem upsert_model_ids_mem (names : List String) (db : DB) :
    ∀ nm ∈ names, nm ≠ "" →
      ∃ r ∈ (upsert_model_ids db names).2, r.name = nm := by
  intro nm hnm hne
  have hord : nm ∈ names.dedup.mergeSort (fun a b => a ≤ b) :=
    List.mem_mergeSort.mpr (List.mem_dedup.mpr hnm)
  exact modelLoop_mem _ db nm hord hne

/-- A present text makes the question map hit. -/
theorem qMapOf_isSome (rows : List QRow) (t : String)
    (h : ∃ r ∈ rows, r.text = t) : (qMapOf rows t).isSome = true := by
  unfold qMapOf
  obtain ⟨r, hr, ht⟩ := h
  have hf : (rows.find? fun r => r.text == t).isSome :=
    List.find?_isSome.mpr ⟨r, hr, by simp [ht]⟩
  cases hfind : rows.find? fun r => r.text == t with
  | none => rw [hfind] at hf; cases hf
  | some r0 => rfl

/-- A present name makes the model map hit. -/
theorem mMapOf_isSome (rows : List MRow) (nm : String)
    (h : ∃ r ∈ rows, r.name = nm) : (mMapOf rows nm).isSome = true := by
  unfold mMapOf
  obtain ⟨r, hr, ht⟩ := h
  have hf : (rows.find? fun r => r.name == nm).isSome :=
    List.find?_isSome.mpr ⟨r, hr, by simp [ht]⟩
  cases hfind : rows.find? fun r => r.name == nm with
  | none => rw [hfind] at hf; cases hf
  | some r0 => rfl

/-- A truthy optional string is a present, non-empty string. -/
theorem truthy_getD (o : Option String) (h : truthy o = true) :
    o = some (o.getD "") ∧ o.getD "" ≠ "" := by
  cases o with
  | none => cases h
  | some s =>
    simp only [truthy, Bool.not_eq_true', beq_eq_false_iff_ne, ne_eq] at h
    exact ⟨rfl, h⟩

/-- When both maps hit every guarded record, the answer loop cannot fail. -/
theorem insert_isSome_of_maps (qmap mmap : String → Option Nat) (now : Nat) :
    ∀ (rows : List LongRec) (db : DB) (n : Nat),
      (∀ r ∈ rows, isLoaded r = true →
        (qmap (r.question_text.getD "")).isSome = true ∧
        (mmap (r.model_name.getD "")).isSome = true) →
      (insert_or_update_answers qmap mmap now rows db n).isSome = true := by
  intro rows
  induction rows with
  | nil => intro db n _; rfl
  | cons r rest ih =>
    intro db n hmaps
    simp only [insert_or_update_answers]
    by_cases hg : isLoaded r = true
    · rw [if_pos hg]
      obtain ⟨hq, hm⟩ := hmaps r (List.mem_cons_self r rest) hg
      cases hqe : qmap (r.question_text.getD "") with
      | none => rw [hqe] at hq; cases hq
      | some qid =>
        cases hme : mmap (r.model_name.getD "") with
        | none => rw [hme] at hm; cases hm
        | some mid =>
          show (insert_or_update_answers qmap mmap now rest
            (upsertAnswer db qid mid (r.answer_text.getD "") now) (n + 1)).isSome = true
          exact ih _ _ fun r' hr' => hmaps r' (List.mem_cons_of_mem r hr')
    · rw [if_neg hg]
      exact ih db n fun r' hr' => hmaps r' (List.mem_cons_of_mem r hr')

/-- C9: with `model_map` built by `upsert_model_ids` over the batch's
deduplicated non-absent model names and `qid_map` built by
`upsert_questions` over the batch's deduplicated non-absent question texts
(exactly as `main` wires them), the dictionary lookups inside
`insert_or_update_answers` cannot fail: the run always returns a result. -/
theorem resolved_identity_total (rows : List LongRec) (db : DB) (tq now : Nat) :
    (insert_or_update_answers
      (qMapOf (upsert_questions (upsert_model_ids db (batchModelNames rows)).1
        (batchQuestions rows) tq).2)
      (mMapOf (upsert_model_ids db (batchModelNames rows)).2)
      now rows
      (upsert_questions (upsert_model_ids db (batchModelNames rows)).1
        (batchQuestions rows) tq).1 0).isSome = true := by
  apply insert_isSome_of_maps
  intro r hr hg
  have hg3 := hg
  unfold isLoaded at hg3
  simp only [Bool.and_eq_true] at hg3
  obtain ⟨⟨htq, htm⟩, hta⟩ := hg3
  obtain ⟨hqeq, hqne⟩ := truthy_getD r.question_text htq
  obtain ⟨hmeq, hmne⟩ := truthy_getD r.model_name htm
  constructor
  · apply qMapOf_isSome
    apply upsert_questions_mem
    rw [batchQuestions, uniqueFirst_mem]
    exact List.mem_filterMap.mpr ⟨r, hr, hqeq⟩
  · apply mMapOf_isSome
    apply upsert_model_ids_mem _ _ _ _ hmne
    rw [batchModelNames, uniqueFirst_mem]
    exact List.mem_filterMap.mpr ⟨r, hr, hmeq⟩

/-! ## Claim C10: the normalizer is idempotent — groundwork -/

/-- Every line-boundary character is whitespace for `strip`. -/
theorem isPySpace_of_isLineBreak (c : Char) (h : isLineBreak c = true) :
    isPySpace c = true := by
  simp only [isLineBreak, Bool.or_eq_true, beq_iff_eq] at h
  rcases h with ((((((((rfl | rfl) | rfl) | rfl) | rfl) | rfl) | rfl) | rfl) | rfl) | rfl <;> decide

/-- The replacement map never produces a carriage return. -/
theorem pyReplChar_ne_cr (c : Char) : pyReplChar c ≠ '\r' := by
  unfold pyReplChar
  by_cases h1 : c == '\r'
  · rw [if_pos h1]; decide
  · rw [if_neg h1]
    by_cases h2 : c == '\u00A0'
    · rw [if_pos h2]; decide
    · rw [if_neg h2]
      intro hc
      exact h1 (by simp [hc])

/-- The replacement map is character-wise idempotent. -/
theorem pyReplChar_idem (c : Char) : pyReplChar (pyReplChar c) = pyReplChar c := by
  unfold pyReplChar
  by_cases h1 : c == '\r'
  · rw [if_pos h1]; decide
  · rw [if_neg h1]
    by_cases h2 : c == '\u00A0'
    · rw [if_pos h2]; decide
    · rw [if_neg h2, if_neg h1, if_neg h2]

/-- `lstrip` of an append. -/
theorem lstripL_append (a b : List Char) :
    lstripL (a ++ b) = if (lstripL a).isEmpty then lstripL b else lstripL a ++ b := by
  unfold lstripL
  exact List.dropWhile_append

/-- `rstrip` of an append. -/
theorem rstripL_append (a b : List Char) :
    rstripL (a ++ b) = if (rstripL b).isEmpty then rstripL a else a ++ rstripL b := by
  unfold rstripL
  rw [List.reverse_append, List.dropWhile_append]
  by_cases h : (b.reverse.dropWhile isPySpace).isEmpty
  · rw [if_pos h, if_pos (by simpa using h)]
  · rw [if_neg h, if_neg (by simpa using h)]
    rw [List.reverse_append, List.reverse_reverse]

/-- `lstrip` drops a leading whitespace character. -/
theorem lstripL_cons_space (c : Char) (w : List Char) (h : isPySpace c = true) :
    lstripL (c :: w) = lstripL w := by
  simp [lstripL, List.dropWhile_cons, h]

/-- A list whose head is not whitespace is `lstrip`-fixed. -/
theorem lstripL_fixed (l : List Char)
    (h : ∀ c, l.head? = some c → isPySpace c = false) : lstripL l = l := by
  cases l with
  | nil => rfl
  | cons c w =>
    have := h c rfl
    simp [lstripL, List.dropWhile_cons, this]

/-- The head of an `lstrip` result is not whitespace. -/
theorem lstripL_head_not_space (l : List Char) (c : Char)
    (h : (lstripL l).head? = some c) : isPySpace c = false := by
  have hh := List.head?_dropWhile_not isPySpace l
  unfold lstripL at h
  rw [h] at hh
  exact hh

/-- A list whose last element is not whitespace is `rstrip`-fixed. -/
theorem rstripL_fixed (l : List Char)
    (h : ∀ c, l.getLast? = some c → isPySpace c = false) : rstripL l = l := by
  unfold rstripL
  cases hr : l.reverse with
  | nil =>
    have : l = [] := by simpa using congrArg List.reverse hr
    simp [this]
  | cons c w =>
    have hc : l.getLast? = some c := by
      rw [← List.head?_reverse, hr]
      rfl
    rw [List.dropWhile_cons, h c hc]
    simp only [Bool.false_eq_true, if_false]
    rw [← hr, List.reverse_reverse]

/-- The last element of an `rstrip` result is not whitespace. -/
theorem rstripL_last_not_space (l : List Char) (c : Char)
    (h : (rstripL l).getLast? = some c) : isPySpace c = false := by
  unfold rstripL at h
  rw [List.getLast?_reverse] at h
  have hh := List.head?_dropWhile_not isPySpace l.reverse
  rw [h] at hh
  exact hh

/-- `rstrip` is idempotent. -/
theorem rstripL_idem (l : List Char) : rstripL (rstripL l) = rstripL l :=
  rstripL_fixed _ (rstripL_last_not_space l)

/-- `lstrip` keeps only characters of the input. -/
theorem mem_of_mem_lstripL (l : List Char) (c : Char) (h : c ∈ lstripL l) : c ∈ l :=
  (List.dropWhile_sublist isPySpace).subset h

/-- `rstrip` keeps only characters of the input. -/
theorem mem_of_mem_rstripL (l : List Char) (c : Char) (h : c ∈ rstripL l) : c ∈ l := by
  unfold rstripL at h
  rw [List.mem_reverse] at h
  have := (List.dropWhile_sublist isPySpace).subset h
  rwa [List.mem_reverse] at this

/-- A nonempty `lstrip` result has the same last element as the input. -/
theorem lstripL_getLast? (l : List Char) (h : lstripL l ≠ []) :
    (lstripL l).getLast? = l.getLast? := by
  obtain ⟨w, hw⟩ := (List.dropWhile_suffix isPySpace : l.dropWhile isPySpace <:+ l)
  show (l.dropWhile isPySpace).getLast? = l.getLast?
  cases hg : (l.dropWhile isPySpace).getLast? with
  | none =>
    exact absurd (List.getLast?_eq_none_iff.mp hg) h
  | some c =>
    conv_rhs => rw [← hw]
    rw [List.getLast?_append, hg]
    rfl

/-- `joinNl` of a single line. -/
theorem joinNl_single (x : List Char) : joinNl [x] = x := by
  simp [joinNl, List.intercalate, List.intersperse]

/-- `joinNl` of at least two lines. -/
theorem joinNl_cons (x : List Char) (L : List (List Char)) (h : L ≠ []) :
    joinNl (x :: L) = x ++ '\n' :: joinNl L := by
  cases L with
  | nil => contradiction
  | cons y ys =>
    show List.intercalate ['\n'] (x :: y :: ys) = _
    simp [joinNl, List.intercalate, List.intersperse]

/-- `splitNl` of a nonempty string is nonempty. -/
theorem splitNl_ne_nil (l : List Char) (h : l ≠ []) : splitNl l ≠ [] := by
  cases l with
  | nil => contradiction
  | cons c rest =>
    simp only [splitNl]
    split
    · simp
    · cases splitNl rest <;> simp [consHead]

/-- Characters of a `splitNl` segment: no line boundary, and drawn from the
input. -/
theorem splitNl_sub (l : List Char) :
    ∀ seg ∈ splitNl l, ∀ c ∈ seg, isLineBreak c = false ∧ c ∈ l := by
  induction l with
  | nil => intro seg hseg; cases hseg
  | cons d rest ih =>
    intro seg hseg c hc
    simp only [splitNl] at hseg
    by_cases hd : isLineBreak d = true
    · rw [if_pos hd] at hseg
      rcases List.mem_cons.mp hseg with rfl | hm
      · cases hc
      · obtain ⟨h1, h2⟩ := ih seg hm c hc
        exact ⟨h1, List.mem_cons_of_mem d h2⟩
    · rw [if_neg hd] at hseg
      cases hsp : splitNl rest with
      | nil =>
        rw [hsp] at hseg
        rcases List.mem_singleton.mp hseg with rfl
        rcases List.mem_singleton.mp hc with rfl
        exact ⟨by simpa using hd, List.mem_cons_self c rest⟩
      | cons s ss =>
        rw [hsp] at hseg
        rcases List.mem_cons.mp hseg with rfl | hm
        · rcases List.mem_cons.mp hc with rfl | hcs
          · exact ⟨by simpa using hd, List.mem_cons_self c rest⟩
          · obtain ⟨h1, h2⟩ := ih s (by rw [hsp]; exact List.mem_cons_self s ss) c hcs
            exact ⟨h1, List.mem_cons_of_mem d h2⟩
        · obtain ⟨h1, h2⟩ := ih seg (by rw [hsp]; exact List.mem_cons_of_mem s hm) c hc
          exact ⟨h1, List.mem_cons_of_mem d h2⟩

/-- `splitNl` of a nonempty boundary-free string is that single line. -/
theorem splitNl_breakfree (x : List Char) (hne : x ≠ [])
    (h : ∀ c ∈ x, isLineBreak c = false) : splitNl x = [x] := by
  induction x with
  | nil => contradiction
  | cons c rest ih =>
    simp only [splitNl]
    rw [if_neg (by simp [h c (List.mem_cons_self c rest)])]
    by_cases hre : rest = []
    · subst hre
      rfl
    · rw [ih hre fun c' hc' => h c' (List.mem_cons_of_mem c hc')]
      rfl

/-- `splitNl` peels a boundary-free line before a line feed. -/
theorem splitNl_append_nl (x z : List Char) (h : ∀ c ∈ x, isLineBreak c = false) :
    splitNl (x ++ '\n' :: z) = x :: splitNl z := by
  induction x with
  | nil =>
    simp only [List.nil_append, splitNl]
    rw [if_pos (by decide)]
  | cons c rest ih =>
    simp only [List.cons_append, splitNl]
    rw [if_neg (by simp [h c (List.mem_cons_self c rest)])]
    show consHead c (splitNl (rest ++ '\n' :: z)) = (c :: rest) :: splitNl z
    rw [ih fun c' hc' => h c' (List.mem_cons_of_mem c hc')]
    rfl

/-- Splitting a joined line list recovers the lines, provided the lines are
boundary-free and the last one is nonempty. -/
theorem splitNl_joinNl (z : List Char) (hz : z ≠ []) :
    ∀ M : List (List Char),
      (∀ seg ∈ M, ∀ c ∈ seg, isLineBreak c = false) →
      M.getLast? = some z → splitNl (joinNl M) = M := by
  intro M
  induction M with
  | nil => intro _ hlast; cases hlast
  | cons x L ih =>
    intro hbf hlast
    rcases L with _ | ⟨y, ys⟩
    · have hxz : x = z := by simpa using hlast
      subst hxz
      rw [joinNl_single]
      exact splitNl_breakfree x hz fun c hc => hbf x (List.mem_cons_self x []) c hc
    · rw [joinNl_cons x (y :: ys) (by simp),
        splitNl_append_nl x (joinNl (y :: ys))
          (fun c hc => hbf x (List.mem_cons_self _ _) c hc)]
      congr 1
      apply ih
      · intro seg hseg c hc
        exact hbf seg (List.mem_cons_of_mem x hseg) c hc
      · simpa using hlast

set_option maxHeartbeats 1600000 in
/-- On carriage-return-free input, Python's `splitlines` is the simple
boundary split. -/
theorem pySplitlines_eq_splitNl (l : List Char) (h : '\r' ∉ l) :
    pySplitlines l = splitNl l := by
  induction l with
  | nil => rfl
  | cons c rest ih =>
    have hc : c ≠ '\r' := fun hh => h (hh ▸ List.mem_cons_self c rest)
    have hrest : '\r' ∉ rest := fun hh => h (List.mem_cons_of_mem c hh)
    rw [pySplitlines.eq_3 c rest fun rest1 hcr _ => hc hcr]
    simp only [splitNl]
    rw [ih hrest]

/-- Characters of a joined line list: separators or line characters. -/
theorem mem_joinNl (M : List (List Char)) (c : Char) (h : c ∈ joinNl M) :
    c = '\n' ∨ ∃ seg ∈ M, c ∈ seg := by
  induction M with
  | nil => cases h
  | cons x L ih =>
    rcases L with _ | ⟨y, ys⟩
    · rw [joinNl_single] at h
      exact Or.inr ⟨x, List.mem_cons_self x [], h⟩
    · rw [joinNl_cons x _ (by simp)] at h
      rcases List.mem_append.mp h with hx | hr
      · exact Or.inr ⟨x, List.mem_cons_self _ _, hx⟩
      · rcases List.mem_cons.mp hr with rfl | hj
        · exact Or.inl rfl
        · rcases ih hj with h1 | ⟨seg, hs, hcs⟩
          · exact Or.inl h1
          · exact Or.inr ⟨seg, List.mem_cons_of_mem x hs, hcs⟩

/-- A line list whose last line is nonempty joins to a nonempty string. -/
theorem joinNl_ne_nil_of_last (M : List (List Char)) (z : List Char)
    (hlast : M.getLast? = some z) (hz : z ≠ []) : joinNl M ≠ [] := by
  induction M with
  | nil => cases hlast
  | cons x L _ =>
    rcases L with _ | ⟨y, ys⟩
    · have : x = z := by simpa using hlast
      subst this
      rw [joinNl_single]
      exact hz
    · rw [joinNl_cons x _ (by simp)]
      simp

/-- The joined string ends where its (nonempty) last line ends. -/
theorem joinNl_getLast? (M : List (List Char)) (z : List Char)
    (hlast : M.getLast? = some z) (hz : z ≠ []) :
    (joinNl M).getLast? = z.getLast? := by
  induction M with
  | nil => cases hlast
  | cons x L ih =>
    rcases L with _ | ⟨y, ys⟩
    · have : x = z := by simpa using hlast
      subst this
      rw [joinNl_single]
    · have hlast' : (y :: ys).getLast? = some z := by simpa using hlast
      rw [joinNl_cons x _ (by simp), List.getLast?_append]
      have hne := joinNl_ne_nil_of_last (y :: ys) z hlast' hz
      have hstep : ('\n' :: joinNl (y :: ys)).getLast? = (joinNl (y :: ys)).getLast? := by
        cases hj : joinNl (y :: ys) with
        | nil => exact absurd hj hne
        | cons a as => rw [List.getLast?_cons_cons]
      rw [hstep, ih hlast']
      cases hzl : z.getLast? with
      | none => exact absurd (List.getLast?_eq_none_iff.mp hzl) hz
      | some c => rfl

/-- The joined string starts where its (nonempty) first line starts. -/
theorem joinNl_head? (h : List Char) (rest : List (List Char)) (hne : h ≠ []) :
    (joinNl (h :: rest)).head? = h.head? := by
  rcases rest with _ | ⟨y, ys⟩
  · rw [joinNl_single]
  · rw [joinNl_cons h _ (by simp), List.head?_append]
    cases hh : h.head? with
    | none => exact absurd (List.head?_eq_none_iff.mp hh) hne
    | some c => rfl

/-- `rstrip` across a leading line feed. -/
theorem rstripL_cons_nl (w : List Char) :
    rstripL ('\n' :: w) = if (rstripL w).isEmpty then [] else '\n' :: rstripL w := by
  have := rstripL_append ['\n'] w
  rw [show ['\n'] ++ w = '\n' :: w from rfl] at this
  rw [this]
  by_cases h : (rstripL w).isEmpty = true
  · rw [if_pos h, if_pos h]
    decide
  · rw [if_neg h, if_neg h]
    rfl

/-- `lstrip` of a joined line list acts on the leading lines only. -/
theorem lstripL_joinNl (L : List (List Char)) :
    lstripL (joinNl L) = joinNl (lstripSegs L) := by
  induction L with
  | nil => rfl
  | cons x L ih =>
    rcases L with _ | ⟨y, ys⟩
    · rw [joinNl_single]
      simp only [lstripSegs]
      by_cases hx : (lstripL x).isEmpty = true
      · rw [if_pos hx]
        exact List.isEmpty_iff.mp hx
      · rw [if_neg hx, joinNl_single]
    · rw [joinNl_cons x _ (by simp),
        show x ++ '\n' :: joinNl (y :: ys) = x ++ ('\n' :: joinNl (y :: ys)) from rfl,
        lstripL_append]
      by_cases hx : (lstripL x).isEmpty = true
      · rw [if_pos hx, lstripL_cons_space '\n' _ (by decide), ih]
        simp only [lstripSegs]
        rw [if_pos hx]
      · rw [if_neg hx]
        simp only [lstripSegs]
        rw [if_neg hx, ← joinNl_cons (lstripL x) (y :: ys) (by simp)]

/-- The last line kept by `dropTrailEmpty` is nonempty. -/
theorem dropTrailEmpty_last :
    ∀ (L : List (List Char)) z, (dropTrailEmpty L).getLast? = some z → z ≠ [] := by
  intro L
  induction L with
  | nil => intro z hz; cases hz
  | cons x L ih =>
    intro z hz
    simp only [dropTrailEmpty] at hz
    cases hde : dropTrailEmpty L with
    | nil =>
      rw [hde] at hz
      by_cases hxe : x.isEmpty = true
      · rw [if_pos hxe] at hz
        cases hz
      · rw [if_neg hxe] at hz
        have : x = z := by simpa using hz
        subst this
        exact fun hh => hxe (by simp [hh])
    | cons d ds =>
      rw [hde] at hz
      rw [List.getLast?_cons_cons] at hz
      apply ih
      rw [hde]
      exact hz

/-- `dropTrailEmpty` keeps only lines of the input. -/
theorem dropTrailEmpty_sub :
    ∀ (L : List (List Char)) seg, seg ∈ dropTrailEmpty L → seg ∈ L := by
  intro L
  induction L with
  | nil => intro seg hs; cases hs
  | cons x L ih =>
    intro seg hs
    simp only [dropTrailEmpty] at hs
    cases hde : dropTrailEmpty L with
    | nil =>
      rw [hde] at hs
      by_cases hxe : x.isEmpty = true
      · rw [if_pos hxe] at hs
        cases hs
      · rw [if_neg hxe] at hs
        rcases List.mem_singleton.mp hs with rfl
        exact List.mem_cons_self seg L
    | cons d ds =>
      rw [hde] at hs
      rcases List.mem_cons.mp hs with rfl | hm
      · exact List.mem_cons_self seg L
      · exact List.mem_cons_of_mem x (ih seg (by rw [hde]; exact hm))

/-- Unfolding equation of `dropTrailEmpty` on a cons. -/
theorem dropTrailEmpty_cons (x : List Char) (L : List (List Char)) :
    dropTrailEmpty (x :: L) =
      match dropTrailEmpty L with
      | [] => if x.isEmpty then [] else [x]
      | y :: M => x :: y :: M := rfl

/-- `rstrip` of a joined list of `rstrip`-fixed lines drops exactly the
trailing empty lines. -/
theorem rstripL_joinNl (L : List (List Char)) (hfix : ∀ seg ∈ L, rstripL seg = seg) :
    rstripL (joinNl L) = joinNl (dropTrailEmpty L) := by
  induction L with
  | nil => rfl
  | cons x L ih =>
    have hx : rstripL x = x := hfix x (List.mem_cons_self x L)
    have hih := ih fun seg hs => hfix seg (List.mem_cons_of_mem x hs)
    rcases L with _ | ⟨y, ys⟩
    · rw [joinNl_single, dropTrailEmpty_cons x [],
        show dropTrailEmpty ([] : List (List Char)) = [] from rfl]
      dsimp only
      by_cases hxe : x.isEmpty = true
      · rw [if_pos hxe, hx]
        exact List.isEmpty_iff.mp hxe
      · rw [if_neg hxe, joinNl_single, hx]
    · rw [joinNl_cons x _ (by simp),
        show x ++ '\n' :: joinNl (y :: ys) = x ++ ('\n' :: joinNl (y :: ys)) from rfl,
        rstripL_append, rstripL_cons_nl, hih, dropTrailEmpty_cons x (y :: ys)]
      cases hde : dropTrailEmpty (y :: ys) with
      | nil =>
        dsimp only
        rw [show joinNl ([] : List (List Char)) = [] from rfl]
        simp only [List.isEmpty_nil, if_true, hx]
        by_cases hxe : x.isEmpty = true
        · rw [if_pos hxe, show joinNl ([] : List (List Char)) = [] from rfl]
          exact List.isEmpty_iff.mp hxe
        · rw [if_neg hxe, joinNl_single]
      | cons d ds =>
        dsimp only
        obtain ⟨z, hzl⟩ : ∃ z, (d :: ds).getLast? = some z := by
          cases hgl : (d :: ds).getLast? with
          | none => exact absurd (List.getLast?_eq_none_iff.mp hgl) (by simp)
          | some z => exact ⟨z, rfl⟩
        have hzne : z ≠ [] := dropTrailEmpty_last (y :: ys) z (by rw [hde]; exact hzl)
        have hjne : joinNl (d :: ds) ≠ [] := joinNl_ne_nil_of_last _ z hzl hzne
        have hjE : (joinNl (d :: ds)).isEmpty = false := by
          cases hj : joinNl (d :: ds) with
          | nil => exact absurd hj hjne
          | cons a as => rfl
        simp only [hjE, Bool.false_eq_true, if_false, List.isEmpty_cons]
        rw [← joinNl_cons x (d :: ds) (by simp)]

/-- Lines kept by `lstripSegs` are input lines or the left-strip of one. -/
theorem lstripSegs_sub :
    ∀ (L : List (List Char)) seg, seg ∈ lstripSegs L →
      seg ∈ L ∨ ∃ x ∈ L, seg = lstripL x := by
  intro L
  induction L with
  | nil => intro seg hs; cases hs
  | cons x L ih =>
    intro seg hs
    simp only [lstripSegs] at hs
    by_cases hx : (lstripL x).isEmpty = true
    · rw [if_pos hx] at hs
      rcases ih seg hs with h | ⟨x', hx', he⟩
      · exact Or.inl (List.mem_cons_of_mem x h)
      · exact Or.inr ⟨x', List.mem_cons_of_mem x hx', he⟩
    · rw [if_neg hx] at hs
      rcases List.mem_cons.mp hs with rfl | hm
      · exact Or.inr ⟨x, List.mem_cons_self x L, rfl⟩
      · exact Or.inl (List.mem_cons_of_mem x hm)

/-- The head kept by `lstripSegs` is nonempty and starts with a
non-whitespace character. -/
theorem lstripSegs_head :
    ∀ (L : List (List Char)) h rest, lstripSegs L = h :: rest →
      h ≠ [] ∧ ∀ c, h.head? = some c → isPySpace c = false := by
  intro L
  induction L with
  | nil => intro h rest hh; cases hh
  | cons x L ih =>
    intro h rest hh
    simp only [lstripSegs] at hh
    by_cases hx : (lstripL x).isEmpty = true
    · rw [if_pos hx] at hh
      exact ih h rest hh
    · rw [if_neg hx] at hh
      have h1 : lstripL x = h := (List.cons.inj hh).1
      subst h1
      exact ⟨fun hc => hx (by simp [hc]), lstripL_head_not_space x⟩

/-- `lstrip` of an `rstrip`-fixed line stays `rstrip`-fixed. -/
theorem rstripL_lstripL_fixed (x : List Char) (hx : rstripL x = x) :
    rstripL (lstripL x) = lstripL x := by
  by_cases hne : lstripL x = []
  · rw [hne]
    rfl
  · apply rstripL_fixed
    intro c hc
    rw [lstripL_getLast? x hne] at hc
    apply rstripL_last_not_space x c
    rw [hx]
    exact hc

/-- `dropTrailEmpty` keeps a nonempty head in place. -/
theorem dropTrailEmpty_head (h0 : List Char) (rest : List (List Char))
    (hne : h0.isEmpty = false) : ∃ r', dropTrailEmpty (h0 :: rest) = h0 :: r' := by
  rw [dropTrailEmpty_cons]
  cases dropTrailEmpty rest with
  | nil =>
    rw [hne]
    exact ⟨[], by simp⟩
  | cons d ds => exact ⟨d :: ds, rfl⟩

/-- C10 core: a value produced by the cleaning pipeline is a fixed point of
the cleaning pipeline. -/
theorem cleanChars_idem (l t : List Char) (h : cleanChars l = some t) :
    cleanChars t = some t := by
  simp only [cleanChars] at h
  by_cases he : (stripL (joinNl ((pySplitlines (l.map pyReplChar)).map rstripL))).isEmpty = true
  · rw [if_pos he] at h
    cases h
  · rw [if_neg he] at h
    have ht := (Option.some.inj h).symm
    have hs1r : '\r' ∉ l.map pyReplChar := by
      intro hm
      rcases List.mem_map.mp hm with ⟨c, _, hc⟩
      exact pyReplChar_ne_cr c hc
    rw [pySplitlines_eq_splitNl _ hs1r] at ht he
    have hLfix : ∀ seg ∈ (splitNl (l.map pyReplChar)).map rstripL, rstripL seg = seg := by
      intro seg hs
      rcases List.mem_map.mp hs with ⟨s0, _, rfl⟩
      exact rstripL_idem s0
    have hLbf : ∀ seg ∈ (splitNl (l.map pyReplChar)).map rstripL,
        ∀ c ∈ seg, isLineBreak c = false := by
      intro seg hs c hc
      rcases List.mem_map.mp hs with ⟨s0, hs0, rfl⟩
      exact (splitNl_sub _ s0 hs0 c (mem_of_mem_rstripL s0 c hc)).1
    have hLrepl : ∀ seg ∈ (splitNl (l.map pyReplChar)).map rstripL,
        ∀ c ∈ seg, pyReplChar c = c := by
      intro seg hs c hc
      rcases List.mem_map.mp hs with ⟨s0, hs0, rfl⟩
      have hcl : c ∈ l.map pyReplChar :=
        (splitNl_sub _ s0 hs0 c (mem_of_mem_rstripL s0 c hc)).2
      rcases List.mem_map.mp hcl with ⟨c0, _, rfl⟩
      exact pyReplChar_idem c0
    have hSfix : ∀ seg ∈ lstripSegs ((splitNl (l.map pyReplChar)).map rstripL),
        rstripL seg = seg := by
      intro seg hs
      rcases lstripSegs_sub _ seg hs with hm | ⟨x, hx, rfl⟩
      · exact hLfix seg hm
      · exact rstripL_lstripL_fixed x (hLfix x hx)
    have htM : t = joinNl (dropTrailEmpty
        (lstripSegs ((splitNl (l.map pyReplChar)).map rstripL))) := by
      rw [ht]
      show stripL _ = _
      unfold stripL
      rw [lstripL_joinNl, rstripL_joinNl _ hSfix]
    have htne : t ≠ [] := by
      intro hh
      rw [ht] at hh
      rw [hh] at he
      exact he rfl
    have hMne : dropTrailEmpty (lstripSegs ((splitNl (l.map pyReplChar)).map rstripL)) ≠ [] := by
      intro hh
      rw [hh] at htM
      exact htne htM
    have hMsub : ∀ seg ∈ dropTrailEmpty (lstripSegs ((splitNl (l.map pyReplChar)).map rstripL)),
        seg ∈ lstripSegs ((splitNl (l.map pyReplChar)).map rstripL) :=
      fun seg hs => dropTrailEmpty_sub _ seg hs
    have hMfix : ∀ seg ∈ dropTrailEmpty (lstripSegs ((splitNl (l.map pyReplChar)).map rstripL)),
        rstripL seg = seg := fun seg hs => hSfix seg (hMsub seg hs)
    have hMchar : ∀ seg ∈ dropTrailEmpty (lstripSegs ((splitNl (l.map pyReplChar)).map rstripL)),
        ∀ c ∈ seg, isLineBreak c = false ∧ pyReplChar c = c := by
      intro seg hs c hc
      rcases lstripSegs_sub _ seg (hMsub seg hs) with hm | ⟨x, hx, rfl⟩
      · exact ⟨hLbf seg hm c hc, hLrepl seg hm c hc⟩
      · have hcx : c ∈ x := mem_of_mem_lstripL x c hc
        exact ⟨hLbf x hx c hcx, hLrepl x hx c hcx⟩
    obtain ⟨z, hzl⟩ : ∃ z, (dropTrailEmpty
        (lstripSegs ((splitNl (l.map pyReplChar)).map rstripL))).getLast? = some z := by
      cases hgl : (dropTrailEmpty (lstripSegs ((splitNl (l.map pyReplChar)).map rstripL))).getLast? with
      | none => exact absurd (List.getLast?_eq_none_iff.mp hgl) hMne
      | some z => exact ⟨z, rfl⟩
    have hzne : z ≠ [] := dropTrailEmpty_last _ z hzl
    obtain ⟨h0, rest0, hS⟩ : ∃ h0 rest0,
        lstripSegs ((splitNl (l.map pyReplChar)).map rstripL) = h0 :: rest0 := by
      cases hSe : lstripSegs ((splitNl (l.map pyReplChar)).map rstripL) with
      | nil =>
        exfalso
        apply hMne
        rw [hSe]
        rfl
      | cons h0 rest0 => exact ⟨h0, rest0, rfl⟩
    obtain ⟨hh0ne, hh0head⟩ := lstripSegs_head _ h0 rest0 hS
    obtain ⟨rest1, hM⟩ : ∃ rest1, dropTrailEmpty
        (lstripSegs ((splitNl (l.map pyReplChar)).map rstripL)) = h0 :: rest1 := by
      rw [hS]
      exact dropTrailEmpty_head h0 rest0 (by cases hq : h0 <;> simp_all)
    -- the second pass
    have e1 : t.map pyReplChar = t := by
      have : ∀ c ∈ t, pyReplChar c = c := by
        intro c hc
        rw [htM] at hc
        rcases mem_joinNl _ c hc with rfl | ⟨seg, hs, hcs⟩
        · rfl
        · exact (hMchar seg hs c hcs).2
      calc t.map pyReplChar = t.map id := List.map_congr_left this
        _ = t := List.map_id t
    have htr : '\r' ∉ t := by
      intro hc
      rw [htM] at hc
      rcases mem_joinNl _ '\r' hc with hh | ⟨seg, hs, hcs⟩
      · exact absurd hh (by decide)
      · have := (hMchar seg hs '\r' hcs).1
        rw [show isLineBreak '\r' = true from by decide] at this
        cases this
    have e3 : splitNl t = dropTrailEmpty
        (lstripSegs ((splitNl (l.map pyReplChar)).map rstripL)) := by
      rw [htM]
      exact splitNl_joinNl z hzne _ (fun seg hs c hc => (hMchar seg hs c hc).1) hzl
    have e4 : (dropTrailEmpty
        (lstripSegs ((splitNl (l.map pyReplChar)).map rstripL))).map rstripL =
        dropTrailEmpty (lstripSegs ((splitNl (l.map pyReplChar)).map rstripL)) := by
      calc _ = (dropTrailEmpty (lstripSegs ((splitNl (l.map pyReplChar)).map rstripL))).map id :=
            List.map_congr_left hMfix
        _ = _ := List.map_id _
    have e6 : stripL t = t := by
      unfold stripL
      have hl : lstripL t = t := by
        apply lstripL_fixed
        intro c hc
        rw [htM, hM, joinNl_head? h0 rest1 hh0ne] at hc
        exact hh0head c hc
      rw [hl]
      apply rstripL_fixed
      intro c hc
      rw [htM, joinNl_getLast? _ z hzl hzne] at hc
      have hzfix := hMfix z (List.mem_of_getLast?_eq_some hzl)
      apply rstripL_last_not_space z c
      rw [hzfix]
      exact hc
    have e7 : t.isEmpty = false := by
      cases hte : t with
      | nil => exact absurd hte htne
      | cons a as => rfl
    simp only [cleanChars]
    rw [e1, pySplitlines_eq_splitNl t htr, e3, e4, ← htM, e6, e7]
    rfl

/-- C10: `clean_text` is idempotent — cleaning an already-cleaned value
changes nothing, and absent input stays absent. -/
theorem clean_text_idempotent (s : Option String) :
    clean_text (clean_text s) = clean_text s := by
  cases s with
  | none => rfl
  | some s =>
    show clean_text ((cleanChars s.data).map String.mk) = (cleanChars s.data).map String.mk
    cases hc : cleanChars s.data with
    | none => rfl
    | some t =>
      show clean_text (some (String.mk t)) = some (String.mk t)
      show (cleanChars (String.mk t).data).map String.mk = some (String.mk t)
      rw [show (String.mk t).data = t from rfl, cleanChars_idem s.data t hc]
      rfl

/-- C6 witness: re-loading a batch containing the already-present text
`"q1"` (plus a new text) into a store holding `"q1"`. -/
theorem question_immutable_on_reload_witness :
    ∃ new, (upsert_questions exDbQ ["q1", "q2"] 5).1.questions = exDbQ.questions ++ new ∧
      ∀ r ∈ new, r.created_at = 5 ∧ ∀ r0 ∈ exDbQ.questions, r0.text ≠ r.text :=
  question_immutable_on_reload ["q1", "q2"] 5 exDbQ

/-- C7 witness: instantiation at an unsupported `.txt` extension. -/
theorem read_table_error_semantics_witness :
    (read_table ".txt" exDf none false = .error .unsupportedFormat
      ↔ isSupportedExt (lowerStr ".txt") = false) ∧
    (read_table ".txt" exDf none false = .error .malformedInput
      ↔ (isSupportedExt (lowerStr ".txt") = true ∧ exDf.cols.length < 2)) :=
  read_table_error_semantics ".txt" exDf none false

/-- C9 witness: the batch with a repeated pair and a skipped record loads
without a missing-identity failure. -/
theorem resolved_identity_total_witness :
    (insert_or_update_answers
      (qMapOf (upsert_questions (upsert_model_ids freshDB (batchModelNames exRowsDup)).1
        (batchQuestions exRowsDup) 3).2)
      (mMapOf (upsert_model_ids freshDB (batchModelNames exRowsDup)).2)
      10 exRowsDup
      (upsert_questions (upsert_model_ids freshDB (batchModelNames exRowsDup)).1
        (batchQuestions exRowsDup) 3).1 0).isSome = true :=
  resolved_identity_total exRowsDup freshDB 3 10

/-- C10 witness: instantiation at a concrete messy string. -/
theorem clean_text_idempotent_witness :
    clean_text (clean_text (some " a \r b ")) = clean_text (some " a \r b ") :=
  clean_text_idempotent (some " a \r b ")

end LlmQna
